import Mathlib

/-!
Shallow embedding of the aerie-seq-utils core (src/time.ts and
src/seqJsonToSeqn.ts) together with theorems settling the specification
claims.  Strings are modelled as `List Char`; JavaScript numbers are
modelled by exact arithmetic (`Nat`, `Int`, `ℚ`): every numeric value that
the claims exercise is an integer or a short decimal fraction, far below
2^53, where IEEE doubles are exact.
-/

namespace SeqnSpec

/-! ### Character classes and numeral helpers (JS `\d`, `\s`, `String(n)`, `parseInt`) -/

def isDigitChar (c : Char) : Bool := decide ('0' ≤ c) && decide (c ≤ '9')

/-- JS regex `\s` (the whitespace characters that occur in practice). -/
def isSpaceChar (c : Char) : Bool := c = ' ' || c = '\t' || c = '\n' || c = '\r'

def digitVal (c : Char) : Nat := c.toNat - 48

/-- The decimal digit character for `n % 10`. -/
def digitChar (n : Nat) : Char :=
  match n % 10 with
  | 0 => '0' | 1 => '1' | 2 => '2' | 3 => '3' | 4 => '4'
  | 5 => '5' | 6 => '6' | 7 => '7' | 8 => '8' | _ => '9'

/-- JS `parseInt` on a string of decimal digits (exact below 2^53). -/
def parseNatDigits (ds : List Char) : Nat := ds.foldl (fun a c => 10 * a + digitVal c) 0

/-- Structural helper for `natDigits` (the fuel argument makes the
recursion structural, so that the kernel can evaluate it). -/
def natDigitsAux : Nat → Nat → List Char
  | 0, n => [digitChar n]
  | fuel + 1, n =>
    if n < 10 then [digitChar n]
    else natDigitsAux fuel (n / 10) ++ [digitChar n]

/-- JS `String(n)` for a non-negative integer. -/
def natDigits (n : Nat) : List Char := natDigitsAux n n

/-- JS `String(n)` for an integer. -/
def intDigits (n : Int) : List Char :=
  if n < 0 then '-' :: natDigits n.natAbs else natDigits n.toNat

/-- JS `String.prototype.padStart(k, c)`. -/
def padStart (k : Nat) (c : Char) (s : List Char) : List Char :=
  List.replicate (k - s.length) c ++ s

/-- Join a list of strings with a separator (JS `Array.prototype.join`). -/
def joinSep (sep : List Char) : List (List Char) → List Char
  | [] => []
  | [x] => x
  | x :: xs => x ++ sep ++ joinSep sep xs

/-! ### Exact JS numbers

Every number that src/time.ts manipulates is a decimal fraction (digit
strings through `parseInt`/`parseFloat`, and sums, floors and remainders
of such), which IEEE doubles represent exactly at the magnitudes the
claims involve.  We model them as `num / 10 ^ exp` in the canonical form
where `exp = 0` or `num` is not divisible by 10, with structurally
recursive arithmetic that the kernel can evaluate. -/

structure Dec where
  num : Int
  exp : Nat
deriving Repr, DecidableEq

namespace Dec

/-- Cancel factors of ten (the fuel, always started at `e`, makes the
recursion structural). -/
def canonAux : Nat → Int → Nat → Dec
  | 0, n, _ => ⟨n, 0⟩
  | fuel + 1, n, e =>
    match e with
    | 0 => ⟨n, 0⟩
    | ep + 1 => if n % 10 = 0 then canonAux fuel (n / 10) ep else ⟨n, ep + 1⟩

def canon (n : Int) (e : Nat) : Dec := canonAux e n e

instance (n : Nat) : OfNat Dec n := ⟨⟨(n : Int), 0⟩⟩

def ofInt (n : Int) : Dec := ⟨n, 0⟩

def ofNat (n : Nat) : Dec := ⟨(n : Int), 0⟩

def neg (a : Dec) : Dec := ⟨-a.num, a.exp⟩

instance : Neg Dec := ⟨neg⟩

def add (a b : Dec) : Dec := canon (a.num * 10 ^ b.exp + b.num * 10 ^ a.exp) (a.exp + b.exp)

def sub (a b : Dec) : Dec := add a (neg b)

def mulInt (a : Dec) (m : Int) : Dec := canon (a.num * m) a.exp

/-- `Math.floor (a / b)` for a positive integer `b`. -/
def floorDiv (a : Dec) (b : Int) : Int := a.num / (b * 10 ^ a.exp)

/-- `Math.floor a`. -/
def floor (a : Dec) : Int := floorDiv a 1

/-- JS `a % b` for the non-negative `a` and positive integer `b` that
reach it in this code. -/
def modInt (a : Dec) (b : Int) : Dec := sub a (ofInt (b * floorDiv a b))

/-- JS `a > 0`. -/
def isPos (a : Dec) : Bool := decide (0 < a.num)

/-- The represented rational value, for specification statements. -/
def val (a : Dec) : ℚ := (a.num : ℚ) / (10 : ℚ) ^ a.exp

end Dec

/-! ### A model of JavaScript regular-expression matching

A pattern body is a function from the input to the ordered list of ways it
can match a prefix of the input (captured value paired with the remaining
input).  The order of the list is the JS backtracking preference order, so
the head of the list is the match JS reports.  `run` evaluates a pattern
anchored at both ends (`^...$`), `searchEnd` a pattern anchored only at
`$`, and `search` an unanchored pattern (leftmost match, preferred
alternative first) — matching `RegExp.prototype.exec` without flags. -/

def M (α : Type) : Type := List Char → List (α × List Char)

namespace M

def pure (a : α) : M α := fun cs => [(a, cs)]

def bind (p : M α) (f : α → M β) : M β := fun cs => (p cs).flatMap fun x => f x.1 x.2

instance : Monad M where
  pure := M.pure
  bind := M.bind

def orElse (p q : M α) : M α := fun cs => p cs ++ q cs

instance : OrElse (M α) := ⟨fun p q => orElse p (q ())⟩

def fail : M α := fun _ => []

def charIf (p : Char → Bool) : M Char := fun cs =>
  match cs with
  | c :: rest => if p c then [(c, rest)] else []
  | [] => []

def chr (c : Char) : M Char := charIf (· = c)

/-- A greedy optional group `(...)?`: present first, then absent. -/
def opt (p : M α) : M (Option α) := (do let a ← p; pure (some a)) <|> pure none

/-- Exactly `k` digits: `[0-9]{k}`. -/
def takeDigits : Nat → M (List Char)
  | 0 => pure []
  | k + 1 => do
      let c ← charIf isDigitChar
      let rest ← takeDigits k
      pure (c :: rest)

/-- `[0-9]+`, greedy: longest candidate first. -/
def digits1 : M (List Char) := fun cs =>
  let ds := cs.takeWhile isDigitChar
  (List.range ds.length).map fun i =>
    (ds.take (ds.length - i), ds.drop (ds.length - i) ++ cs.drop ds.length)

/-- `[0-9]{1,k}`, greedy. -/
def digitsUpTo (k : Nat) : M (List Char) := fun cs =>
  let ds := (cs.takeWhile isDigitChar).take k
  (List.range ds.length).map fun i =>
    (ds.take (ds.length - i), ds.drop (ds.length - i) ++ cs.drop ds.length)

/-- `\s*`.  Greedy, one candidate: in every pattern of the source a `\s*` is
followed by a character class disjoint from whitespace, so a shorter match
never completes and the backtracking alternatives are irrelevant. -/
def spaces : M Unit := fun cs => [((), cs.dropWhile isSpaceChar)]

/-- A negative lookahead `(?!c)` for a single character. -/
def notFollowedBy (c : Char) : M Unit := fun cs =>
  match cs with
  | d :: _ => if d = c then [] else [((), cs)]
  | [] => [((), cs)]

/-- `^body$`: first complete match in preference order. -/
def run (p : M α) (cs : List Char) : Option α :=
  (((p cs).filter fun x => x.2.isEmpty).head?).map (·.1)

/-- `body$` without `^`: leftmost position with a complete match. -/
def searchEnd (p : M α) : List Char → Option α
  | [] => (((p []).filter fun x => x.2.isEmpty).head?).map (·.1)
  | c :: t =>
    match ((p (c :: t)).filter fun x => x.2.isEmpty).head? with
    | some x => some x.1
    | none => searchEnd p t

/-- `body` with neither anchor: leftmost match, preferred candidate. -/
def search (p : M α) : List Char → Option α
  | [] => ((p []).head?).map (·.1)
  | c :: t =>
    match (p (c :: t)).head? with
    | some x => some x.1
    | none => search p t

end M

/-! ### The time-tag regular expressions of src/time.ts -/

/-- Captured groups of `EPOCH_TIME` (and of `RELATIVE_TIME`, which is the
same pattern without the sign group). -/
structure EpochGroups where
  sign : Option Char
  doy : Option (List Char)
  hr : List Char
  mins : List Char
  secs : Option (List Char)
  ms : Option (List Char)
deriving Repr, DecidableEq

/-- `EPOCH_TIME =
^((?<sign>[+-]?))(?<doy>([0-9]{3}))?(T)?(?<hr>([0-9]{2})):(?<mins>([0-9]{2})):(?<secs>[0-9]{2})?(\.)?(?<ms>([0-9]+))?$` -/
def epochBody : M EpochGroups := do
  let sign ← M.opt (M.charIf fun c => c = '+' || c = '-')
  let doy ← M.opt (M.takeDigits 3)
  let _ ← M.opt (M.chr 'T')
  let hr ← M.takeDigits 2
  let _ ← M.chr ':'
  let mins ← M.takeDigits 2
  let _ ← M.chr ':'
  let secs ← M.opt (M.takeDigits 2)
  let _ ← M.opt (M.chr '.')
  let ms ← M.opt M.digits1
  M.pure ⟨sign, doy, hr, mins, secs, ms⟩

/-- `RELATIVE_TIME =
^(?<doy>([0-9]{3}))?(T)?(?<hr>([0-9]{2})):(?<mins>([0-9]{2})):(?<secs>[0-9]{2})?(\.)?(?<ms>([0-9]+))?$`
(the absent sign group is reported as `none`, matching the `sign = ''`
destructuring default in the source). -/
def relativeBody : M EpochGroups := do
  let doy ← M.opt (M.takeDigits 3)
  let _ ← M.opt (M.chr 'T')
  let hr ← M.takeDigits 2
  let _ ← M.chr ':'
  let mins ← M.takeDigits 2
  let _ ← M.chr ':'
  let secs ← M.opt (M.takeDigits 2)
  let _ ← M.opt (M.chr '.')
  let ms ← M.opt M.digits1
  M.pure ⟨none, doy, hr, mins, secs, ms⟩

/-- `ABSOLUTE_TIME = ^(\d{4})-(\d{3})T(\d{2}):(\d{2}):(\d{2})(?:\.(\d{3}))?$`
(its captures are only ever tested against null, so none are returned). -/
def absoluteBody : M Unit := do
  let _ ← M.takeDigits 4
  let _ ← M.chr '-'
  let _ ← M.takeDigits 3
  let _ ← M.chr 'T'
  let _ ← M.takeDigits 2
  let _ ← M.chr ':'
  let _ ← M.takeDigits 2
  let _ ← M.chr ':'
  let _ ← M.takeDigits 2
  let _ ← M.opt (do
    let _ ← M.chr '.'
    M.takeDigits 3)
  M.pure ()

/-- `RELATIVE_SIMPLE = (\d+)(\.[0-9]+)?$` — no start anchor. -/
def simpleNumTail : M Unit := do
  let _ ← M.digits1
  let _ ← M.opt (do
    let _ ← M.chr '.'
    M.digits1)
  M.pure ()

/-- `EPOCH_SIMPLE = (^[+-]?)(\d+)(\.[0-9]+)?$` — the `^` inside the first
group anchors the whole match at the start of the string. -/
def epochSimpleBody : M Unit := do
  let _ ← M.opt (M.charIf fun c => c = '+' || c = '-')
  let _ ← M.digits1
  let _ ← M.opt (do
    let _ ← M.chr '.'
    M.digits1)
  M.pure ()

inductive TimeTypes where
  | ABSOLUTE | EPOCH | RELATIVE | EPOCH_SIMPLE | RELATIVE_SIMPLE
deriving Repr, DecidableEq

/-- `validateTime` of src/time.ts (the `default` branch of the source's
switch is unreachable over the closed `TimeTypes` enum). -/
def validateTime (time : List Char) (type : TimeTypes) : Bool :=
  match type with
  | .ABSOLUTE => (M.run absoluteBody time).isSome
  | .EPOCH => (M.run epochBody time).isSome
  | .RELATIVE => (M.run relativeBody time).isSome
  | .EPOCH_SIMPLE => (M.run epochSimpleBody time).isSome
  | .RELATIVE_SIMPLE => (M.searchEnd simpleNumTail time).isSome

/-! ### Durations: `parseDurationString` and its helpers (src/time.ts) -/

structure NumLit where
  sign : Option Char
  intPart : List Char
  fracPart : Option (List Char)
deriving Repr, DecidableEq

/-- One field value `([+-]?)(\d+)(\.\d+)?` (also the body of the
bare-number regex `^(?<sign>([+-]?))(?<int>(\d+))(?<decimal>\.(\d+))?$`).
The fraction digits are stored without the dot. -/
def numLit : M NumLit := do
  let sign ← M.opt (M.charIf fun c => c = '+' || c = '-')
  let ip ← M.digits1
  let fp ← M.opt (do
    let _ ← M.chr '.'
    M.digits1)
  M.pure ⟨sign, ip, fp⟩

/-- JS `parseFloat` on a matched signed decimal (exact decimal value). -/
def NumLit.toVal (n : NumLit) : Dec :=
  let mag : Dec := match n.fracPart with
    | none => Dec.ofNat (parseNatDigits n.intPart)
    | some fs => Dec.canon (parseNatDigits n.intPart * 10 ^ fs.length + parseNatDigits fs) fs.length
  if n.sign = some '-' then Dec.neg mag else mag

structure DurationGroups where
  isNegative : Option Char
  years : Option NumLit
  days : Option NumLit
  hours : Option NumLit
  minutes : Option NumLit
  seconds : Option NumLit
  milliseconds : Option NumLit
  microseconds : Option NumLit
deriving Repr, DecidableEq

/-- One unit field of the duration regex, `(?:\\s*(?<g>V)u...)`:
whitespace, a signed decimal, the unit's first character, then the rest of
the unit (a second character or a lookahead), yielding the capture. -/
def unitField (u : Char) (tail : M Unit) : M NumLit := do
  M.spaces
  let v ← numLit
  let _ ← M.chr u
  tail
  M.pure v

/-- `fullValidDurationRegex` of `parseDurationString`:
`^((?<isNegative>-))?(?:\\s*(?<years>V)y)?(?:\\s*(?<days>V)d)?(?:\\s*(?<hours>V)h)?(?:\\s*(?<minutes>V)m(?!s))?(?:\\s*(?<seconds>V)s)?(?:\\s*(?<milliseconds>V)ms)?(?:\\s*(?<microseconds>V)us)?$`
with `V = ([+-]?)(\\d+)(\\.\\d+)?`. -/
def fullDurationBody : M DurationGroups := do
  let neg ← M.opt (M.chr '-')
  let years ← M.opt (unitField 'y' (M.pure ()))
  let days ← M.opt (unitField 'd' (M.pure ()))
  let hours ← M.opt (unitField 'h' (M.pure ()))
  let minutes ← M.opt (unitField 'm' (M.notFollowedBy 's'))
  let seconds ← M.opt (unitField 's' (M.pure ()))
  let milliseconds ← M.opt (unitField 'm' (do
    let _ ← M.chr 's'
    M.pure ()))
  let microseconds ← M.opt (unitField 'u' (do
    let _ ← M.chr 's'
    M.pure ()))
  M.pure ⟨neg, years, days, hours, minutes, seconds, milliseconds, microseconds⟩

/-- The `ParsedDurationString` record: all fields are JS numbers, modelled
as exact rationals. -/
structure ParsedDurationString where
  years : Dec
  days : Dec
  hours : Dec
  minutes : Dec
  seconds : Dec
  milliseconds : Dec
  microseconds : Dec
  isNegative : Bool
deriving Repr, DecidableEq

structure ParsedDoyString where
  year : Nat
  doy : Nat
  hour : Nat
  min : Nat
  sec : Nat
  ms : Dec
  time : List Char
deriving Repr, DecidableEq

structure ParsedYmdString where
  year : Nat
  month : Nat
  day : Nat
  hour : Nat
  min : Nat
  sec : Nat
  ms : Dec
  time : List Char
deriving Repr, DecidableEq

/-- The union `ParsedDoyString | ParsedYmdString | ParsedDurationString`
returned by `parseDoyOrYmdTime`. -/
inductive ParsedTimeResult where
  | doyR (p : ParsedDoyString)
  | ymdR (p : ParsedYmdString)
  | durR (p : ParsedDurationString)
deriving Repr, DecidableEq

/-- Captures of the `parseDoyOrYmdTime` pattern.  The `dec` capture is
stored without its leading dot. -/
structure DoyYmdGroups where
  year : List Char
  month : Option (List Char)
  day : Option (List Char)
  doy : Option (List Char)
  time : Option (List Char)
  hour : Option (List Char)
  min : Option (List Char)
  sec : Option (List Char)
  dec : Option (List Char)
deriving Repr, DecidableEq

/-- `(?:[0]?[0-9])|(?:[1][0-2])` — alternatives in source order. -/
def monthBody : M (List Char) :=
  (do
    let _ ← M.chr '0'
    let d ← M.charIf isDigitChar
    M.pure ['0', d]) <|>
  (do
    let d ← M.charIf isDigitChar
    M.pure [d]) <|>
  (do
    let _ ← M.chr '1'
    let d ← M.charIf fun c => c = '0' || c = '1' || c = '2'
    M.pure ['1', d])

/-- `(?:[0-2]?[0-9])|(?:[3][0-1])`. -/
def dayBody : M (List Char) :=
  (do
    let a ← M.charIf fun c => c = '0' || c = '1' || c = '2'
    let d ← M.charIf isDigitChar
    M.pure [a, d]) <|>
  (do
    let d ← M.charIf isDigitChar
    M.pure [d]) <|>
  (do
    let _ ← M.chr '3'
    let d ← M.charIf fun c => c = '0' || c = '1'
    M.pure ['3', d])

/-- `[0-9]|[0-2][0-9]` — the one-digit alternative is preferred. -/
def hourBody : M (List Char) :=
  (do
    let d ← M.charIf isDigitChar
    M.pure [d]) <|>
  (do
    let a ← M.charIf fun c => c = '0' || c = '1' || c = '2'
    let d ← M.charIf isDigitChar
    M.pure [a, d])

/-- `[0-9]|(?:[0-5][0-9])`. -/
def minSecBody : M (List Char) :=
  (do
    let d ← M.charIf isDigitChar
    M.pure [d]) <|>
  (do
    let a ← M.charIf fun c => decide ('0' ≤ c) && decide (c ≤ '5')
    let d ← M.charIf isDigitChar
    M.pure [a, d])

/-- The pattern of `parseDoyOrYmdTime` (built with the `i` flag, so the
`T` separator also matches `t`):
`^(?<year>\d{4})-(?:(?<month>M)-(?<day>D)|(?<doy>\d{1,3}))(?:T(?<time>(?<hour>H)(?::(?<min>S))?(?::(?<sec>S)(?<dec>\.\d{1,k})?)?)?)?$` -/
def doyYmdBody (numDecimals : Nat) : M DoyYmdGroups := do
  let y ← M.takeDigits 4
  let _ ← M.chr '-'
  let (mo, d, doy) ←
    (do
      let mo ← monthBody
      let _ ← M.chr '-'
      let d ← dayBody
      M.pure (some mo, some d, (none : Option (List Char)))) <|>
    (do
      let dd ← M.digitsUpTo 3
      M.pure ((none : Option (List Char)), (none : Option (List Char)), some dd))
  let tp ← M.opt (do
    let _ ← M.charIf fun c => c = 'T' || c = 't'
    M.opt (do
      let h ← hourBody
      let mi ← M.opt (do
        let _ ← M.chr ':'
        minSecBody)
      let se ← M.opt (do
        let _ ← M.chr ':'
        let s ← minSecBody
        let de ← M.opt (do
          let _ ← M.chr '.'
          M.digitsUpTo numDecimals)
        M.pure (s, de))
      M.pure (h, mi, se)))
  match tp with
  | none => M.pure ⟨y, mo, d, doy, none, none, none, none, none⟩
  | some none => M.pure ⟨y, mo, d, doy, none, none, none, none, none⟩
  | some (some (h, mi, se)) =>
    let miTxt := match mi with
      | none => []
      | some m => ':' :: m
    let seTxt := match se with
      | none => []
      | some (s, de) => ':' :: s ++ (match de with
        | none => []
        | some ds => '.' :: ds)
    let sg := se.map (·.1)
    let dg := se.bind (·.2)
    M.pure ⟨y, mo, d, doy, some (h ++ miTxt ++ seTxt), some h, mi, sg, dg⟩

/-- JS `x.toFixed(k)` followed by `parseFloat`: rounds to `k` decimal
places.  With the 6-decimal limit of `parseDoyOrYmdTime`, the value
already has at most `k` decimals and is returned unchanged; the rounding
branch (half up) is supplied only for totality. -/
def toFixedVal (k : Nat) (q : Dec) : Dec :=
  if q.exp ≤ k then q
  else
    let d : Int := (10 : Int) ^ (q.exp - k)
    Dec.canon ((2 * q.num + d) / (2 * d)) k

/-- `parseDOYDurationTime` of src/time.ts. -/
def parseDOYDurationTime (doyTime : List Char) : Option ParsedDurationString :=
  let isEpoch := validateTime doyTime .EPOCH
  let mres := if isEpoch then M.run epochBody doyTime else M.run relativeBody doyTime
  match mres with
  | some g => some {
      days := Dec.ofNat (parseNatDigits (g.doy.getD ['0'])),
      hours := Dec.ofNat (parseNatDigits g.hr),
      isNegative := g.sign = some '-',
      microseconds := 0,
      milliseconds := Dec.ofNat (parseNatDigits (g.ms.getD ['0'])),
      minutes := Dec.ofNat (parseNatDigits g.mins),
      seconds := Dec.ofNat (parseNatDigits (g.secs.getD ['0'])),
      years := 0 }
  | none => none

/-- `parseDoyOrYmdTime` of src/time.ts (`numDecimals` defaults to 6 at
every call site in the source). -/
def parseDoyOrYmdTime (dateString : List Char) (numDecimals : Nat) : Option ParsedTimeResult :=
  match M.run (doyYmdBody numDecimals) dateString with
  | some g =>
    let time := g.time.getD "00:00:00".data
    let hour := parseNatDigits (g.hour.getD ['0'])
    let min := parseNatDigits (g.min.getD ['0'])
    let sec := parseNatDigits (g.sec.getD ['0'])
    let decQ : Dec := match g.dec with
      | none => 0
      | some ds => Dec.canon (parseNatDigits ds) ds.length
    let ms : Dec := toFixedVal numDecimals (Dec.mulInt decQ 1000)
    let year := parseNatDigits g.year
    match g.doy with
    | some dd => some (.doyR ⟨year, parseNatDigits dd, hour, min, sec, ms, time⟩)
    | none => some (.ymdR ⟨year, parseNatDigits (g.month.getD ['0']),
        parseNatDigits (g.day.getD ['0']), hour, min, sec, ms, time⟩)
  | none => (parseDOYDurationTime dateString).map .durR

inductive DurationUnits where
  | days | hours | minutes | seconds | milliseconds | microseconds
deriving Repr, DecidableEq

/-- The carry cascade of the bare-number branch (src/time.ts 187-220):
microseconds are carried into milliseconds with a division by 1000000 (as
in the source), then milliseconds/seconds/minutes/hours/days/years are
carried with their usual factors, using a fixed 365-day year. -/
def carryCascade (microsecond millisecond second minute hour day : Dec)
    (isNeg : Bool) : ParsedDurationString :=
  let millisecond := Dec.add millisecond (Dec.ofInt (Dec.floorDiv microsecond 1000000))
  let microsecond := Dec.modInt microsecond 1000000
  let second := Dec.add second (Dec.ofInt (Dec.floorDiv millisecond 1000))
  let millisecond := Dec.modInt millisecond 1000
  let minute := Dec.add minute (Dec.ofInt (Dec.floorDiv second 60))
  let second := Dec.modInt second 60
  let hour := Dec.add hour (Dec.ofInt (Dec.floorDiv minute 60))
  let minute := Dec.modInt minute 60
  let day := Dec.add day (Dec.ofInt (Dec.floorDiv hour 24))
  let hour := Dec.modInt hour 24
  let year := Dec.ofInt (Dec.floorDiv day 365)
  let day := Dec.modInt day 365
  { days := day, hours := hour, isNegative := isNeg,
    microseconds := microsecond, milliseconds := millisecond,
    minutes := minute, seconds := second, years := year }

/-- The bare-number branch of `parseDurationString` (src/time.ts 146-221):
the unit shift followed by the carry cascade.  Note the source divides
microseconds by 1000000 (not 1000) when carrying into milliseconds. -/
def normalizeBareDuration (sign : Option Char) (int : List Char)
    (decimal : Option (List Char)) (units : DurationUnits) : ParsedDurationString :=
  let number : Dec := Dec.ofNat (parseNatDigits int)
  let decimalNum : Dec := match decimal with
    | none => 0
    | some ds => Dec.canon (parseNatDigits ds) ds.length
  let (microsecond, millisecond, second, minute, hour, day) :
      Dec × Dec × Dec × Dec × Dec × Dec :=
    match units with
    | .microseconds => (number, 0, 0, 0, 0, 0)
    | .milliseconds => (decimalNum, number, 0, 0, 0, 0)
    | .seconds => (0, decimalNum, number, 0, 0, 0)
    | .minutes => (0, 0, decimalNum, number, 0, 0)
    | .hours => (0, 0, 0, decimalNum, number, 0)
    | .days => (0, 0, 0, 0, decimalNum, number)
  carryCascade microsecond millisecond second minute hour day (decide (sign = some '-'))

/-- `parseDurationString` of src/time.ts.  `none` models the thrown
`Invalid time format` error.  The middle branch returns whatever
`parseDoyOrYmdTime` produced — including calendar (`ParsedDoyString` /
`ParsedYmdString`) results, faithfully modelling the unsound
`as ParsedDurationString` cast in the source. -/
def parseDurationString (durationString : List Char) (units : DurationUnits) :
    Option ParsedTimeResult :=
  match M.run fullDurationBody durationString with
  | some g => some (.durR {
      days := (g.days.map NumLit.toVal).getD 0,
      hours := (g.hours.map NumLit.toVal).getD 0,
      isNegative := g.isNegative.isSome,
      microseconds := (g.microseconds.map NumLit.toVal).getD 0,
      milliseconds := (g.milliseconds.map NumLit.toVal).getD 0,
      minutes := (g.minutes.map NumLit.toVal).getD 0,
      seconds := (g.seconds.map NumLit.toVal).getD 0,
      years := (g.years.map NumLit.toVal).getD 0 })
  | none =>
    match parseDoyOrYmdTime durationString 6 with
    | some r => some r
    | none =>
      match M.run numLit durationString with
      | some n => some (.durR (normalizeBareDuration n.sign n.intPart n.fracPart units))
      | none => none

/-! ### Calendar arithmetic: the ECMAScript `Date` model

The source manipulates instants through JS `Date`.  ECMAScript defines the
UTC accessors by exact integer arithmetic on the epoch-milliseconds value
over the proleptic Gregorian calendar; we model them with the ECMAScript
`DayFromYear` formula and a corrected-estimate `YearFromTime` (Lean's `/`
and `%` on `Int` are floor division and its remainder for the positive
divisors used here, matching ECMAScript's `floor` and `modulo`).
-/

def msPerDay : Int := 86400000

/-- ECMAScript `DayFromYear(y)`: the day number (relative to 1970-01-01)
of January 1 of proleptic-Gregorian year `y`. -/
def dayFromYear (y : Int) : Int :=
  365 * (y - 1970) + (y - 1969) / 4 - (y - 1901) / 100 + (y - 1601) / 400

/-- ECMAScript `YearFromTime`, on a day number: specified as the unique
`y` with `dayFromYear y ≤ d < dayFromYear (y + 1)`, computed here by an
estimate corrected by at most one year (`yearFromDay_bounds` below proves
the computed value satisfies the specifying property). -/
def yearFromDay (d : Int) : Int :=
  let y0 := 1970 + 400 * d / 146097
  if dayFromYear (y0 + 1) ≤ d then y0 + 1
  else if d < dayFromYear y0 then y0 - 1
  else y0

/-- `Date.UTC(year, 0, day, hours, mins, secs, ms)` — the month argument is
always 0 in the source, so `MakeDay` reduces to `DayFromYear(y) + day - 1`.
Years 0..99 map to 1900..1999, as in ECMAScript. -/
def dateUTC (year day hours mins secs ms : Int) : Int :=
  let y := if 0 ≤ year ∧ year ≤ 99 then 1900 + year else year
  (dayFromYear y + (day - 1)) * msPerDay
    + hours * 3600000 + mins * 60000 + secs * 1000 + ms

/-- `Date.prototype.getUTCFullYear` on an epoch-milliseconds value. -/
def jsUTCFullYear (t : Int) : Int := yearFromDay (t / msPerDay)

def timeOfDayMs (t : Int) : Int := t % msPerDay

def jsUTCHours (t : Int) : Int := timeOfDayMs t / 3600000

def jsUTCMinutes (t : Int) : Int := t / 60000 % 60

def jsUTCSeconds (t : Int) : Int := t / 1000 % 60

/-- `getUTCMilliseconds`; `getMilliseconds` agrees with it because every
time-zone offset is a whole number of seconds. -/
def jsUTCMilliseconds (t : Int) : Int := t % 1000

/-- `getDoy` of src/time.ts: `Math.floor((t - Date.UTC(y, 0, 0)) / 8.64e7)`
(exact: the float operands stay far below 2^53 for 4-digit years). -/
def getDoy (t : Int) : Int :=
  let start := dateUTC (jsUTCFullYear t) 0 0 0 0 0
  (t - start) / msPerDay

/-- `getDoyTimeComponents` of src/time.ts. -/
structure DoyTimeComponents where
  doy : List Char
  hours : List Char
  mins : List Char
  msecs : List Char
  secs : List Char
  year : List Char
deriving Repr, DecidableEq

def getDoyTimeComponents (t : Int) : DoyTimeComponents :=
  { doy := padStart 3 '0' (intDigits (getDoy t)),
    hours := padStart 2 '0' (intDigits (jsUTCHours t)),
    mins := padStart 2 '0' (intDigits (jsUTCMinutes t)),
    msecs := padStart 3 '0' (intDigits (jsUTCMilliseconds t)),
    secs := padStart 2 '0' (intDigits (jsUTCSeconds t)),
    year := intDigits (jsUTCFullYear t) }

/-- `getDoyTime` of src/time.ts (`includeMsecs` defaults to true at every
call site in the source). -/
def getDoyTime (t : Int) (includeMsecs : Bool) : List Char :=
  let c := getDoyTimeComponents t
  let base := c.year ++ '-' :: c.doy ++ 'T' :: c.hours ++ ':' :: c.mins ++ ':' :: c.secs
  if includeMsecs && decide (0 < jsUTCMilliseconds t) then base ++ '.' :: c.msecs else base

structure UnixTsGroups where
  year : List Char
  doy : List Char
  hours : List Char
  mins : List Char
  secs : List Char
  msecs : Option (List Char)
deriving Repr, DecidableEq

/-- The unanchored pattern of `getUnixEpochTime`:
`(\d{4})-(\d{3})T(\d{2}):(\d{2}):(\d{2})\.?(\d{3})?` -/
def unixTsBody : M UnixTsGroups := do
  let y ← M.takeDigits 4
  let _ ← M.chr '-'
  let d ← M.takeDigits 3
  let _ ← M.chr 'T'
  let h ← M.takeDigits 2
  let _ ← M.chr ':'
  let mi ← M.takeDigits 2
  let _ ← M.chr ':'
  let s ← M.takeDigits 2
  let _ ← M.opt (M.chr '.')
  let ms ← M.opt (M.takeDigits 3)
  M.pure ⟨y, d, h, mi, s, ms⟩

/-- `getUnixEpochTime` of src/time.ts. -/
def getUnixEpochTime (doyTimestamp : List Char) : Int :=
  match M.search unixTsBody doyTimestamp with
  | some g => dateUTC (parseNatDigits g.year) (parseNatDigits g.doy)
      (parseNatDigits g.hours) (parseNatDigits g.mins) (parseNatDigits g.secs)
      (parseNatDigits (g.msecs.getD ['0']))
  | none => 0

/-! ### `convertDurationToDoy` and `getBalancedDuration` -/

/-- JS `String(x)` on a number, for the exact decimal values of `Dec`
(canonical form: no trailing zero in the fraction, as JS prints). -/
def decToString (a : Dec) : List Char :=
  if a.exp = 0 then intDigits a.num
  else (if a.num < 0 then ['-'] else ([] : List Char)) ++
    natDigits (a.num.natAbs / 10 ^ a.exp) ++
    '.' :: padStart a.exp '0' (natDigits (a.num.natAbs % 10 ^ a.exp))

/-- `convertDurationToDoy` of src/time.ts.  Note the `* 1000` applied to
the milliseconds field before padding. -/
def convertDurationToDoy (duration : ParsedDurationString) : List Char :=
  let years := if duration.years = 0 then "1970".data
    else padStart 4 '0' (decToString duration.years)
  let day : Int := max 1 (Dec.floor duration.days)
  let hours := padStart 2 '0' (decToString duration.hours)
  let minutes := padStart 2 '0' (decToString duration.minutes)
  let seconds := padStart 2 '0' (decToString duration.seconds)
  let milliseconds := padStart 3 '0' (decToString (Dec.mulInt duration.milliseconds 1000))
  years ++ '-' :: padStart 3 '0' (intDigits day) ++ 'T' :: hours ++ ':' :: minutes
    ++ ':' :: seconds ++ '.' :: milliseconds

/-- `getBalancedDuration` of src/time.ts.  `none` models the exception
propagated out of `parseDurationString`; the source immediately reads
duration-only fields of the cast result, so a calendar-shaped parse (which
would yield NaN text in JS) is also mapped to `none` — no input considered
by the claims takes that path. -/
def getBalancedDuration (time : List Char) : Option (List Char) :=
  match parseDurationString time .seconds with
  | some (.durR duration) =>
    let balancedTime := getDoyTime (getUnixEpochTime (convertDurationToDoy duration)) true
    match parseDoyOrYmdTime balancedTime 6 with
    | some (.doyR p) =>
      let shouldIncludeDay := Dec.isPos duration.days || decide (1 < p.doy)
      let sign := if duration.isNegative then ['-'] else ([] : List Char)
      let day := if shouldIncludeDay then
          padStart 3 '0' (intDigits ((p.doy : Int) - (if Dec.isPos duration.days then 0 else 1))) ++ ['T']
        else []
      some (sign ++ day ++ padStart 2 '0' (natDigits p.hour) ++ ':' ::
        padStart 2 '0' (natDigits p.min) ++ ':' :: padStart 2 '0' (natDigits p.sec) ++
        '.' :: padStart 3 '0' (decToString p.ms))
    | _ => none
  | _ => none

/-! ### The serializer: src/seqJsonToSeqn.ts

The document types mirror the seq-json schema as the serializer consumes
it.  `logError` (src/logger.ts, outside the sources) only records a
message, so every serializing function returns the produced text paired
with the ordered list of logged messages. -/

def lbraceC : Char := Char.ofNat 123

def rbraceC : Char := Char.ofNat 125

/-- JSON values (numbers restricted to the integers the claims use). -/
inductive JsonValue where
  | nullV
  | boolV (b : Bool)
  | numV (n : Int)
  | strV (s : List Char)
  | arrV (xs : List JsonValue)
  | objV (kvs : List (List Char × JsonValue))
deriving Repr

def jsonEscapeChar (c : Char) : List Char :=
  if c = '"' then ['\\', '"']
  else if c = '\\' then ['\\', '\\']
  else if c = '\n' then ['\\', 'n']
  else if c = '\t' then ['\\', 't']
  else if c = '\r' then ['\\', 'r']
  else [c]

def jsonQuote (s : List Char) : List Char :=
  '"' :: s.flatMap jsonEscapeChar ++ ['"']

def nSpaces (n : Nat) : List Char := List.replicate n ' '

mutual

/-- `JSON.stringify(v, null, 2)` at indentation depth `ind`. -/
def jsonStringify (ind : Nat) : JsonValue → List Char
  | .nullV => "null".data
  | .boolV b => if b then "true".data else "false".data
  | .numV n => intDigits n
  | .strV s => jsonQuote s
  | .arrV [] => ['[', ']']
  | .arrV (x :: xs) =>
    '[' :: '\n' ::
      joinSep [',', '\n'] ((jsonStringifyItems (ind + 2) (x :: xs)).map fun it => nSpaces (ind + 2) ++ it)
      ++ '\n' :: nSpaces ind ++ [']']
  | .objV [] => [lbraceC, rbraceC]
  | .objV (kv :: kvs) =>
    lbraceC :: '\n' ::
      joinSep [',', '\n'] ((jsonStringifyFields (ind + 2) (kv :: kvs)).map fun it => nSpaces (ind + 2) ++ it)
      ++ '\n' :: nSpaces ind ++ [rbraceC]

def jsonStringifyItems (ind : Nat) : List JsonValue → List (List Char)
  | [] => []
  | x :: xs => jsonStringify ind x :: jsonStringifyItems ind xs

def jsonStringifyFields (ind : Nat) : List (List Char × JsonValue) → List (List Char)
  | [] => []
  | (k, v) :: kvs => (jsonQuote k ++ ':' :: ' ' :: jsonStringify ind v) :: jsonStringifyFields ind kvs

end

/-- Modelled from the spec: `quoteEscape` is imported from
src/parse-utils.ts, which is not among the sources; §4.4 says string
arguments are quote-escaped.  We model it as wrapping in double quotes,
escaping embedded backslashes and double quotes; no claim depends on the
escaping of other characters. -/
def quoteEscape (s : List Char) : List Char :=
  '"' :: (s.flatMap fun c =>
    if c = '"' then ['\\', '"'] else if c = '\\' then ['\\', '\\'] else [c]) ++ ['"']

inductive SeqTimeType where
  | ABSOLUTE | COMMAND_COMPLETE | COMMAND_RELATIVE | EPOCH_RELATIVE
deriving Repr, DecidableEq

structure SeqTime where
  type : SeqTimeType
  tag : Option (List Char)
deriving Repr, DecidableEq

/-- `seqJsonTimeToSequence` (the `default` branch of the source's switch is
unreachable over the closed enum). -/
def seqJsonTimeToSequence (time : SeqTime) : List Char :=
  match time.type with
  | .ABSOLUTE => 'A' :: time.tag.getD []
  | .COMMAND_COMPLETE => ['C']
  | .COMMAND_RELATIVE => 'R' :: time.tag.getD []
  | .EPOCH_RELATIVE => 'E' :: time.tag.getD []

inductive BaseArg where
  | stringArg (value : List Char)
  | numberArg (value : Int)
  | booleanArg (value : Bool)
  | symbolArg (value : List Char)
  | hexArg (value : List Char)
deriving Repr, DecidableEq

/-- A runtime value that the source checks with `Array.isArray`:
either an array of `α`, or some non-array value (whose content the
serializer never inspects — it only logs a fixed message). -/
inductive ArrOr (α : Type) where
  | arr (xs : List α)
  | notAnArray
deriving Repr, DecidableEq

inductive Arg where
  | base (b : BaseArg)
  | repeatArg (value : ArrOr (ArrOr BaseArg))
deriving Repr, DecidableEq

/-- `seqJsonBaseArgToSequence`. -/
def seqJsonBaseArgToSequence : BaseArg → List Char
  | .stringArg v => quoteEscape v
  | .numberArg v => intDigits v
  | .booleanArg v => if v then "true".data else "false".data
  | .symbolArg v => v
  | .hexArg v => v

/-- JS `trimEnd` / `trimStart` / `trim`. -/
def trimEndL (s : List Char) : List Char := (s.reverse.dropWhile isSpaceChar).reverse

def trimStartL (s : List Char) : List Char := s.dropWhile isSpaceChar

def trimL (s : List Char) : List Char := trimStartL (trimEndL s)

/-- One iteration of the inner loop over `arg.value` of a repeat
argument. -/
def setsFoldStep (acc : List Char × List String) (set : ArrOr BaseArg) : List Char × List String :=
  match set with
  | .arr xs => (trimL (acc.1 ++ xs.flatMap fun a => ' ' :: seqJsonBaseArgToSequence a), acc.2)
  | .notAnArray => (acc.1, acc.2 ++ ["Repeat arg set value is not an array"])

/-- The inner loop over `arg.value` of a repeat argument. -/
def repeatArgSetsToSequence (sets : List (ArrOr BaseArg)) : List Char × List String :=
  sets.foldl setsFoldStep ([], [])

/-- One iteration of the `for (const arg of args)` loop of
`seqJsonArgsToSequence`. -/
def argsFoldStep (acc : List Char × List String) (arg : Arg) : List Char × List String :=
  let withSpace := acc.1 ++ [' ']
  match arg with
  | .repeatArg (.arr sets) =>
    let inner := repeatArgSetsToSequence sets
    (trimEndL (withSpace ++ '[' :: inner.1 ++ [']']), acc.2 ++ inner.2)
  | .repeatArg .notAnArray =>
    (trimEndL withSpace, acc.2 ++ ["Repeat arg value is not an array"])
  | .base b => (trimEndL (withSpace ++ seqJsonBaseArgToSequence b), acc.2)

/-- `seqJsonArgsToSequence`. -/
def seqJsonArgsToSequence (args : List Arg) : List Char × List String :=
  let folded := args.foldl argsFoldStep ([], [])
  (if 0 < (trimL folded.1).length then ' ' :: trimL folded.1 else [], folded.2)

inductive ModelVar where
  | strV (s : List Char)
  | rawV (s : List Char)
deriving Repr, DecidableEq

inductive ModelValue where
  | strV (s : List Char)
  | numV (n : Int)
  | boolV (b : Bool)
deriving Repr, DecidableEq

structure ModelEntry where
  varName : ModelVar
  value : ModelValue
  offset : List Char
deriving Repr, DecidableEq

def modelLine (model : ModelEntry) : List Char :=
  let formattedValue := match model.value with
    | .strV s => quoteEscape s
    | .boolV b => if b then "true".data else "false".data
    | .numV n => intDigits n
  let varPart := match model.varName with
    | .strV s => quoteEscape s
    | .rawV s => '"' :: s ++ ['"']
  "@MODEL ".data ++ varPart ++ ' ' :: formattedValue ++ ' ' :: quoteEscape model.offset

/-- `seqJsonModelsToSequence`. -/
def seqJsonModelsToSequence (models : List ModelEntry) : List Char :=
  let modelString := joinSep ['\n'] (models.map modelLine)
  if 0 < modelString.length then modelString ++ ['\n'] else []

/-- A metadata object: an insertion-ordered association list (JS objects
with non-index string keys preserve insertion order and have no duplicate
keys). -/
abbrev Metadata := List (List Char × JsonValue)

def metadataEntryLine (kv : List Char × JsonValue) : List Char :=
  "@METADATA ".data ++ quoteEscape kv.1 ++ ' ' :: jsonStringify 0 kv.2

/-- `seqJsonMetadataToSequence`. -/
def seqJsonMetadataToSequence (metadata : Metadata) : List Char :=
  let metaDataString := joinSep ['\n'] (metadata.map metadataEntryLine)
  if 0 < metaDataString.length then metaDataString ++ ['\n'] else []

structure VarRange where
  min : Int
  max : Int
deriving Repr, DecidableEq

inductive AllowableValue where
  | numV (n : Int)
  | strV (s : List Char)
deriving Repr, DecidableEq

/-- the template-literal rendering `${value}`. -/
def AllowableValue.render : AllowableValue → List Char
  | .numV n => intDigits n
  | .strV s => s

structure VariableDeclaration where
  name : List Char
  type : Option (List Char)
  enum_name : Option (List Char)
  allowable_ranges : Option (List VarRange)
  allowable_values : Option (List AllowableValue)
deriving Repr, DecidableEq

/-- JS truthiness of an optional string (`undefined` and `''` are falsy). -/
def optStrTruthy : Option (List Char) → Bool
  | none => false
  | some s => 0 < s.length

/-- The per-variable rendering inside `seqJsonVariableToSequence`. -/
def variableLine (v : VariableDeclaration) : List Char :=
  let name := v.name
  let type := if optStrTruthy v.type then ' ' :: v.type.getD [] else []
  let enumName := if optStrTruthy v.enum_name then ' ' :: v.enum_name.getD [] else []
  let allowableRanges := match v.allowable_ranges with
    | some rs => ' ' :: '"' ::
        joinSep [','] (rs.map fun r => intDigits r.min ++ '.' :: '.' :: '.' :: intDigits r.max) ++ ['"']
    | none => []
  let allowableValues := match v.allowable_values with
    | some vs => ' ' :: (if allowableRanges.length = 0 then '"' :: '"' :: [' '] else []) ++
        '"' :: joinSep [','] (vs.map AllowableValue.render) ++ ['"']
    | none => []
  name ++ type ++ enumName ++ allowableRanges ++ allowableValues

inductive VarBlockType where
  | INPUT_PARAMS | LOCALS
deriving Repr, DecidableEq

def VarBlockType.render : VarBlockType → List Char
  | .INPUT_PARAMS => "INPUT_PARAMS".data
  | .LOCALS => "LOCALS".data

/-- `seqJsonVariableToSequence`. -/
def seqJsonVariableToSequence (vars : List VariableDeclaration) (type : VarBlockType) : List Char :=
  let sequence := '@' :: type.render ++ "_BEGIN\n".data ++ joinSep ['\n'] (vars.map variableLine)
  trimL sequence ++ '\n' :: '@' :: type.render ++ "_END\n".data

/-- `seqJsonDescriptionToSequence`. -/
def seqJsonDescriptionToSequence (description : List Char) : List Char :=
  ' ' :: '#' :: ' ' :: description ++ ['\n']

structure CommandStep where
  stem : List Char
  time : SeqTime
  args : List Arg
  description : Option (List Char)
  metadata : Option Metadata
  models : Option (List ModelEntry)
deriving Repr

structure ActivateLoadStep where
  sequence : List Char
  time : SeqTime
  args : Option (List Arg)
  engine : Option Int
  epoch : Option (List Char)
  description : Option (List Char)
  metadata : Option Metadata
  models : Option (List ModelEntry)
deriving Repr

structure GroundStep where
  name : List Char
  time : SeqTime
  args : Option (List Arg)
  description : Option (List Char)
  metadata : Option Metadata
  models : Option (List ModelEntry)
deriving Repr

inductive Step where
  | command (c : CommandStep)
  | activate (a : ActivateLoadStep)
  | load (a : ActivateLoadStep)
  | ground_block (g : GroundStep)
  | ground_event (g : GroundStep)
deriving Repr

def endsWithNewline (s : List Char) : Bool :=
  match s.getLast? with
  | some c => c = '\n'
  | none => false

/-- `commandToString`. -/
def commandToString (step : CommandStep) : List Char × List String :=
  let time := seqJsonTimeToSequence step.time
  let argsP := seqJsonArgsToSequence step.args
  let metadata := match step.metadata with
    | some m => seqJsonMetadataToSequence m
    | none => []
  let models := match step.models with
    | some m => seqJsonModelsToSequence m
    | none => []
  let description := if optStrTruthy step.description
    then seqJsonDescriptionToSequence (step.description.getD []) else []
  let commandString := time ++ ' ' :: step.stem ++ argsP.1 ++ description
  let commandString := if endsWithNewline commandString then commandString
    else commandString ++ ['\n']
  (commandString ++ metadata ++ models, argsP.2)

/-- `loadOrActivateToString` (`isActivate` records which of the two step
types is being rendered). -/
def loadOrActivateToString (isActivate : Bool) (step : ActivateLoadStep) : List Char × List String :=
  let time := seqJsonTimeToSequence step.time
  let argsP := match step.args with
    | some a => seqJsonArgsToSequence a
    | none => ([], [])
  let metadata := match step.metadata with
    | some m => seqJsonMetadataToSequence m
    | none => []
  let models := match step.models with
    | some m => seqJsonModelsToSequence m
    | none => []
  let engine := match step.engine with
    | some e => "@ENGINE ".data ++ intDigits e ++ ['\n']
    | none => []
  let epoch := match step.epoch with
    | some e => "@EPOCH ".data ++ quoteEscape e ++ ['\n']
    | none => []
  let description := if optStrTruthy step.description
    then seqJsonDescriptionToSequence (step.description.getD []) else []
  let stepType := '@' :: (if isActivate then "ACTIVATE".data else "LOAD".data)
    ++ '(' :: quoteEscape step.sequence ++ [')']
  let stepString := time ++ ' ' :: stepType ++ argsP.1 ++ description
  let stepString := if endsWithNewline stepString then stepString else stepString ++ ['\n']
  (stepString ++ engine ++ epoch ++ metadata ++ models, argsP.2)

/-- `groundToString`. -/
def groundToString (isBlock : Bool) (step : GroundStep) : List Char × List String :=
  let time := seqJsonTimeToSequence step.time
  let argsP := match step.args with
    | some a => seqJsonArgsToSequence a
    | none => ([], [])
  let metadata := match step.metadata with
    | some m => seqJsonMetadataToSequence m
    | none => []
  let models := match step.models with
    | some m => seqJsonModelsToSequence m
    | none => []
  let description := if optStrTruthy step.description
    then seqJsonDescriptionToSequence (step.description.getD []) else []
  let stepType := '@' :: (if isBlock then "GROUND_BLOCK".data else "GROUND_EVENT".data)
    ++ '(' :: quoteEscape step.name ++ [')']
  let stepString := time ++ ' ' :: stepType ++ argsP.1 ++ description
  let stepString := if endsWithNewline stepString then stepString else stepString ++ ['\n']
  (stepString ++ metadata ++ models, argsP.2)

/-- The step dispatch shared by the steps loop and `requestToString`. -/
def stepToString : Step → List Char × List String
  | .command c => commandToString c
  | .activate a => loadOrActivateToString true a
  | .load a => loadOrActivateToString false a
  | .ground_block g => groundToString true g
  | .ground_event g => groundToString false g

structure GroundEpoch where
  delta : Option (List Char)
  name : Option (List Char)
deriving Repr, DecidableEq

structure Request where
  name : List Char
  time : Option SeqTime
  ground_epoch : Option GroundEpoch
  steps : List Step
  description : Option (List Char)
  metadata : Option Metadata
deriving Repr

/-- `requestToString`. -/
def requestToString (request : Request) : List Char × List String :=
  let time := match request.time with
    | some t => seqJsonTimeToSequence t
    | none => match request.ground_epoch with
      | some ge => 'G' :: ge.delta.getD [] ++ ' ' :: quoteEscape (ge.name.getD [])
      | none => []
  let reqBegin := "@REQUEST_BEGIN(".data ++ quoteEscape request.name ++ [')']
  let description := if optStrTruthy request.description
    then seqJsonDescriptionToSequence (request.description.getD []) else []
  let requestString := time ++ ' ' :: reqBegin ++ description
  let requestString := if endsWithNewline requestString then requestString
    else requestString ++ ['\n']
  let stepsP := request.steps.foldl
    (fun acc st =>
      let r := stepToString st
      (acc.1 ++ r.1, acc.2 ++ r.2)) ([], [])
  let metadata := match request.metadata with
    | some m => seqJsonMetadataToSequence m
    | none => []
  (requestString ++ stepsP.1 ++ "@REQUEST_END\n".data ++ metadata, stepsP.2)

structure ImmediateCommand where
  stem : List Char
  args : List Arg
  description : Option (List Char)
  metadata : Option Metadata
deriving Repr

structure HardwareCommand where
  stem : List Char
  description : Option (List Char)
  metadata : Option Metadata
deriving Repr

/-- The document root (`SeqJson` of the seq-json schema, as consumed by
the serializer; `id` and `metadata` are required fields there). -/
structure SeqJson where
  id : List Char
  metadata : Metadata
  parameters : Option (List VariableDeclaration)
  locals : Option (List VariableDeclaration)
  steps : Option (List Step)
  immediate_commands : Option (List ImmediateCommand)
  hardware_commands : Option (List HardwareCommand)
  requests : Option (List Request)
deriving Repr

/-- JS truthiness of a JSON value. -/
def jsTruthy : JsonValue → Bool
  | .nullV => false
  | .boolV b => b
  | .numV n => decide (n ≠ 0)
  | .strV s => 0 < s.length
  | .arrV _ => true
  | .objV _ => true

/-- Property access `m.lgo` on a metadata object. -/
def metadataLookup (m : Metadata) (k : List Char) : Option JsonValue :=
  (m.find? fun kv => kv.1 = k).map (·.2)

/-- Truthiness of `seqJson.metadata.lgo` (`undefined` is falsy). -/
def metadataLgoTruthy (m : Metadata) : Bool :=
  match metadataLookup m "lgo".data with
  | some v => jsTruthy v
  | none => false

/-- `seqJsonToSeqn` of src/seqJsonToSeqn.ts.  The
`Object.entries(...).filter(([key]) => key !== 'lgo').reduce(...)`
pipeline rebuilds an object holding exactly the filtered entries in their
original order (string non-index keys, no duplicates), i.e. the filtered
association list. -/
def seqJsonToSeqn (seqJson : SeqJson) : List Char × List String :=
  let idPart := "@ID \"".data ++ seqJson.id ++ ['"', '\n']
  let paramsPart := match seqJson.parameters with
    | some ps => seqJsonVariableToSequence ps .INPUT_PARAMS
    | none => []
  let localsPart := match seqJson.locals with
    | some ls => seqJsonVariableToSequence ls .LOCALS
    | none => []
  let metaPart := seqJsonMetadataToSequence (seqJson.metadata.filter fun kv => kv.1 ≠ "lgo".data)
  let lgoPart := if metadataLgoTruthy seqJson.metadata then "\n@LOAD_AND_GO".data else []
  let stepsPart : List Char × List String := match seqJson.steps with
    | some steps => steps.foldl
        (fun acc st =>
          let r := stepToString st
          (acc.1 ++ r.1, acc.2 ++ r.2)) (['\n'], [])
    | none => ([], [])
  let immediatePart : List Char × List String := match seqJson.immediate_commands with
    | some icmds => icmds.foldl
        (fun acc icmd =>
          let argsP := seqJsonArgsToSequence icmd.args
          let description := if optStrTruthy icmd.description
            then seqJsonDescriptionToSequence (icmd.description.getD []) else []
          let metadata := match icmd.metadata with
            | some m => seqJsonMetadataToSequence m
            | none => []
          let immediateString := icmd.stem ++ argsP.1 ++ description
          let immediateString := if endsWithNewline immediateString then immediateString
            else immediateString ++ ['\n']
          (acc.1 ++ immediateString ++ metadata, acc.2 ++ argsP.2))
        ('\n' :: "@IMMEDIATE\n".data, [])
    | none => ([], [])
  let hardwarePart : List Char := match seqJson.hardware_commands with
    | some hdws => hdws.foldl
        (fun acc hdw =>
          let description := if optStrTruthy hdw.description
            then seqJsonDescriptionToSequence (hdw.description.getD []) else []
          let metadata := match hdw.metadata with
            | some m => seqJsonMetadataToSequence m
            | none => []
          let hardwareString := hdw.stem ++ description
          let hardwareString := if endsWithNewline hardwareString then hardwareString
            else hardwareString ++ ['\n']
          acc ++ hardwareString ++ metadata)
        ('\n' :: "@HARDWARE\n".data)
    | none => []
  let requestsPart : List Char × List String := match seqJson.requests with
    | some rs => rs.foldl
        (fun acc r =>
          let rp := requestToString r
          (acc.1 ++ '\n' :: rp.1, acc.2 ++ rp.2)) ([], [])
    | none => ([], [])
  (idPart ++ paramsPart ++ localsPart ++ metaPart ++ lgoPart ++ stepsPart.1
      ++ immediatePart.1 ++ hardwarePart ++ requestsPart.1,
   stepsPart.2 ++ immediatePart.2 ++ requestsPart.2)

/-! ### Concrete documents and inputs used by the claim theorems -/

def repeatGrouped : Arg :=
  .repeatArg (.arr [.arr [.numberArg 1, .numberArg 2], .arr [.numberArg 3, .numberArg 4]])

def repeatFlat : Arg :=
  .repeatArg (.arr [.arr [.numberArg 1, .numberArg 2, .numberArg 3, .numberArg 4]])

def commandWith (args : List Arg) : Step :=
  .command ⟨"CMD".data, ⟨.COMMAND_COMPLETE, none⟩, args, none, none, none⟩

def docA : SeqJson :=
  ⟨"s".data, [], none, none, some [commandWith [repeatGrouped]], none, none, none⟩

def docB : SeqJson :=
  ⟨"s".data, [], none, none, some [commandWith [repeatFlat]], none, none, none⟩

/-- The size of the first argument-set of the first repeat argument:
distinguishes `docA` from `docB`. -/
def firstRepeatSetSize (d : SeqJson) : Option Nat :=
  match d.steps with
  | some (.command c :: _) =>
    match c.args with
    | .repeatArg (.arr (.arr xs :: _)) :: _ => some xs.length
    | _ => none
  | _ => none

def lgoFalseDoc : SeqJson :=
  ⟨"x".data, [("lgo".data, .boolV false)], none, none, none, none, none, none⟩

/-- The shape `digits ['.' digits]` with nothing after it: one or more
digits followed by an optional decimal fraction (a dot and one or more
digits).  The common tail of both simple time-tag grammars. -/
def numTailB (u : List Char) : Bool :=
  let intPart := u.takeWhile isDigitChar
  let rest := u.drop intPart.length
  0 < intPart.length &&
    (rest.isEmpty ||
      (rest.head? = some '.' && 0 < rest.tail.length && rest.tail.all isDigitChar))

/-- The claim's description of the simple time-tag grammars, written from
its words: an optional leading sign, one or more digits, an optional
decimal fraction, and nothing else before or after. -/
def isBareSignedDecimal (s : List Char) : Bool :=
  numTailB (match s with
    | c :: t => if c = '+' || c = '-' then t else c :: t
    | [] => [])

/-- A nonempty string whose last character is a decimal digit. -/
def endsInDigit (s : List Char) : Bool :=
  match s.getLast? with
  | some c => isDigitChar c
  | none => false

/-- `parseDurationString` on the epoch-shaped input `01:02:03` (hours 1,
minutes 2, seconds 3). -/
def c6Example : ParsedDurationString := ⟨0, 0, 1, 2, 3, 0, 0, false⟩

/-! ## Theorems -/

/-! ### Numeral helper lemmas -/

theorem digitVal_digitChar (n : Nat) : digitVal (digitChar n) = n % 10 := by
  have h : n % 10 < 10 := Nat.mod_lt _ (by omega)
  unfold digitChar
  interval_cases h10 : n % 10 <;> simp [h10, digitVal]

theorem isDigitChar_digitChar (n : Nat) : isDigitChar (digitChar n) = true := by
  have h : n % 10 < 10 := Nat.mod_lt _ (by omega)
  unfold digitChar
  interval_cases h10 : n % 10 <;> simp [h10] <;> decide

theorem parseNatDigits_append (a b : List Char) :
    parseNatDigits (a ++ b) = b.foldl (fun x c => 10 * x + digitVal c) (parseNatDigits a) := by
  simp [parseNatDigits, List.foldl_append]

theorem parseNatDigits_natDigitsAux (fuel : Nat) :
    ∀ n, n ≤ fuel → parseNatDigits (natDigitsAux fuel n) = n := by
  induction fuel with
  | zero =>
    intro n hn
    have h0 : n = 0 := by omega
    subst h0
    simp [natDigitsAux, parseNatDigits, digitVal_digitChar]
  | succ f ih =>
    intro n hn
    rw [natDigitsAux]
    by_cases h : n < 10
    · rw [if_pos h]
      simp [parseNatDigits, digitVal_digitChar]
      omega
    · rw [if_neg h, parseNatDigits_append]
      simp only [List.foldl_cons, List.foldl_nil]
      rw [ih (n / 10) (by omega), digitVal_digitChar]
      omega

theorem parseNatDigits_natDigits (n : Nat) : parseNatDigits (natDigits n) = n :=
  parseNatDigits_natDigitsAux n n (Nat.le_refl n)

theorem natDigitsAux_all_digit (fuel : Nat) :
    ∀ n, (natDigitsAux fuel n).all isDigitChar = true := by
  induction fuel with
  | zero =>
    intro n
    simp [natDigitsAux, isDigitChar_digitChar]
  | succ f ih =>
    intro n
    rw [natDigitsAux]
    by_cases h : n < 10
    · simp [h, isDigitChar_digitChar]
    · rw [if_neg h]
      simp only [List.all_append, List.all_cons, List.all_nil, Bool.and_true, Bool.and_eq_true]
      exact And.intro (ih (n / 10)) (isDigitChar_digitChar n)

theorem natDigits_all_digit (n : Nat) : (natDigits n).all isDigitChar = true :=
  natDigitsAux_all_digit n n

/-! ### Claim C1: the document round trip -/

/-- **C1, counterexample.**  Two syntactically valid documents that differ
only in how a repeat argument's values are grouped into argument-sets
serialize to the same SeqN text, so `extract(parse(serialize(D))) == D`
cannot hold for both of them, whatever the parser and extractor do. -/
theorem c1_roundtrip_counterexample :
    seqJsonToSeqn docA = seqJsonToSeqn docB ∧ docA ≠ docB :=
  ⟨by decide, fun h => absurd (congrArg firstRepeatSetSize h) (by decide)⟩

/-- **C1, amended.**  The serializer is not injective — a repeat
argument's grouping into argument-sets is flattened into one bracket
group — so no extraction of the serialized text can restore every
syntactically valid document; the round trip holds at most up to
repeat-argument regrouping. -/
theorem c1_serializer_not_injective :
    ∃ d1 d2 : SeqJson, d1 ≠ d2 ∧ seqJsonToSeqn d1 = seqJsonToSeqn d2 :=
  ⟨docA, docB, fun h => absurd (congrArg firstRepeatSetSize h) (by decide), by decide⟩

/-! ### Claim C2: `getBalancedDuration` on `'-002T00:60:00.010'` -/

/-- **C2, the code's actual value at the claimed input.**  The claim (and
the doc comment on `getBalancedDuration` itself) promise
`'-002T01:00:00.010'`, but the code produces `'-002T01:00:00.100'`:
`convertDurationToDoy` multiplies the parsed 10 ms by 1000 and pads it
into a three-digit slot (`'10000'`), of which `getUnixEpochTime` reads
back only the first three digits (`100` ms). -/
theorem c2_getBalancedDuration_failing_input :
    getBalancedDuration "-002T00:60:00.010".data = some "-002T01:00:00.100".data ∧
    some "-002T01:00:00.100".data ≠ some "-002T01:00:00.010".data :=
  ⟨by decide, by decide⟩

/-! ### Claim C3: `parseDuration` on unit-suffixed microseconds -/

/-- **C3, counterexample.**  `parseDuration('1234567us')` matches the
unit-suffixed grammar, whose fields reflect the literal input and are not
carried: milliseconds is 0, not `floor(1234567/1000) mod 1000 = 234`. -/
theorem c3_unit_suffix_counterexample :
    parseDurationString "1234567us".data .microseconds =
      some (.durR ⟨0, 0, 0, 0, 0, 0, 1234567, false⟩) ∧
    1234567 / 1000 % 1000 = (234 : Nat) :=
  ⟨by decide, by decide⟩

/-! ### Claim C6: signs of duration fields -/

/-- **C6, counterexample.**  The unit-suffixed duration grammar allows an
explicit sign on each field: `'1h-30m'` parses with `minutes = -30` while
`isNegative` stays false, so not every field of a parsed duration is a
non-negative magnitude. -/
theorem c6_per_field_sign_counterexample :
    parseDurationString "1h-30m".data .microseconds =
      some (.durR ⟨0, 0, 1, -30, 0, 0, 0, false⟩) ∧
    (-30 : ℚ) < 0 :=
  ⟨by decide, by decide⟩

/-! ### Claim C7: the simple time-tag grammars -/

/-- **C7, counterexample.**  `RELATIVE_SIMPLE` has no start anchor, so
`validate('abc1', RELATIVE_SIMPLE)` is true although `'abc1'` is not a
bare signed decimal number. -/
theorem c7_relative_simple_counterexample :
    validateTime "abc1".data .RELATIVE_SIMPLE = true ∧
    isBareSignedDecimal "abc1".data = false :=
  ⟨by decide, by decide⟩

/-! ### Claim C8: the reserved `lgo` metadata key -/

/-- **C8, counterexample.**  A document with `metadata.lgo` set to
`false`: the key is set, yet the serialized text is just the ID line —
no `@LOAD_AND_GO` is emitted, because the source tests JS truthiness of
`metadata.lgo`, not its presence. -/
theorem c8_lgo_falsy_counterexample :
    (metadataLookup lgoFalseDoc.metadata "lgo".data).isSome = true ∧
    (seqJsonToSeqn lgoFalseDoc).1 = "@ID \"x\"\n".data :=
  ⟨by decide, by decide⟩

/-- **C8, amended.**  On a document with a metadata mapping, the document
metadata section renders exactly the entries whose key is not `lgo`
(unchanged and in order), the reserved `lgo` key never produces an
`@METADATA` line, and `@LOAD_AND_GO` is emitted exactly when
`metadata.lgo` is set to a truthy value (a set-but-falsy `lgo` emits
nothing). -/
theorem c8_lgo_promotion (id : List Char) (m : Metadata) :
    (seqJsonToSeqn ⟨id, m, none, none, none, none, none, none⟩).1 =
      "@ID \"".data ++ id ++ ['"', '\n'] ++
        seqJsonMetadataToSequence (m.filter fun kv => kv.1 ≠ "lgo".data) ++
        (if metadataLgoTruthy m then "\n@LOAD_AND_GO".data else []) ∧
    (∀ kv ∈ m.filter (fun kv => kv.1 ≠ "lgo".data), kv.1 ≠ "lgo".data) ∧
    (∀ kv ∈ m, kv.1 ≠ "lgo".data → kv ∈ m.filter (fun kv => kv.1 ≠ "lgo".data)) := by
  refine ⟨?_, ?_, ?_⟩
  · simp [seqJsonToSeqn]
  · intro kv hkv
    simpa using (List.of_mem_filter hkv)
  · intro kv hkv hne
    exact List.mem_filter.mpr ⟨hkv, by simpa using hne⟩

/-- **C8, witness for the amended claim** at a concrete document with a
truthy `lgo` and one ordinary key. -/
theorem c8_lgo_promotion_witness :
    (seqJsonToSeqn ⟨"x".data, [("lgo".data, .boolV true), ("a".data, .numV 1)],
        none, none, none, none, none, none⟩).1 =
      "@ID \"x\"\n".data ++ seqJsonMetadataToSequence [("a".data, .numV 1)] ++
        "\n@LOAD_AND_GO".data := by
  have h := (c8_lgo_promotion "x".data [("lgo".data, .boolV true), ("a".data, .numV 1)]).1
  rw [h]
  norm_num [List.filter, metadataLgoTruthy, metadataLookup, List.find?, jsTruthy]
  rfl

/-! ### Claim C9: variable-declaration rendering -/

/-- **C9.**  The rendering of one `INPUT_PARAMS`/`LOCALS` variable
declaration, by the four cases of the claim: with no allowable ranges the
empty ranges quote is omitted — unless allowable values are also present,
in which case an empty placeholder quote `""` precedes the quoted
comma-joined values; present ranges render as `min...max` pairs joined by
commas inside one quote (followed, when values are present, by the values
quote with no placeholder). -/
theorem c9_variable_rendering (v : VariableDeclaration) :
    variableLine v =
      v.name ++ (if optStrTruthy v.type then ' ' :: v.type.getD [] else []) ++
        (if optStrTruthy v.enum_name then ' ' :: v.enum_name.getD [] else []) ++
      (match v.allowable_ranges, v.allowable_values with
       | none, none => []
       | none, some vs =>
         ' ' :: '"' :: '"' :: ' ' :: '"' :: joinSep [','] (vs.map AllowableValue.render) ++ ['"']
       | some rs, none =>
         ' ' :: '"' :: joinSep [','] (rs.map fun r =>
           intDigits r.min ++ '.' :: '.' :: '.' :: intDigits r.max) ++ ['"']
       | some rs, some vs =>
         (' ' :: '"' :: joinSep [','] (rs.map fun r =>
           intDigits r.min ++ '.' :: '.' :: '.' :: intDigits r.max) ++ ['"']) ++
         ' ' :: '"' :: joinSep [','] (vs.map AllowableValue.render) ++ ['"']) := by
  rcases v with ⟨name, type, enum_name, ranges, values⟩
  cases ranges <;> cases values <;> simp [variableLine]

/-! ### Claim C5: serializer leniency for malformed repeat arguments -/

theorem dropWhile_dropWhile (p : α → Bool) (l : List α) :
    (l.dropWhile p).dropWhile p = l.dropWhile p := by
  induction l with
  | nil => rfl
  | cons c t ih =>
    by_cases h : p c
    · simp [List.dropWhile_cons, h, ih]
    · simp [List.dropWhile_cons, h]

theorem trimEndL_idem (s : List Char) : trimEndL (trimEndL s) = trimEndL s := by
  simp [trimEndL, dropWhile_dropWhile]

theorem trimEndL_append_space (s : List Char) : trimEndL (s ++ [' ']) = trimEndL s := by
  have h : isSpaceChar ' ' = true := by decide
  simp [trimEndL, List.dropWhile_cons, h]

theorem argsFoldStep_fixed (acc : List Char × List String) (arg : Arg) :
    trimEndL (argsFoldStep acc arg).1 = (argsFoldStep acc arg).1 := by
  cases arg with
  | base b => simp [argsFoldStep, trimEndL_idem]
  | repeatArg v => cases v <;> simp [argsFoldStep, trimEndL_idem]

theorem argsFold_fixed (args : List Arg) :
    ∀ acc : List Char × List String, trimEndL acc.1 = acc.1 →
      trimEndL (args.foldl argsFoldStep acc).1 = (args.foldl argsFoldStep acc).1 := by
  induction args with
  | nil => intro acc h; exact h
  | cons x xs ih =>
    intro acc _
    simp only [List.foldl_cons]
    exact ih _ (argsFoldStep_fixed acc x)

theorem argsFoldStep_log (a : List Char) (l : List String) (x : Arg) :
    argsFoldStep (a, l) x = ((argsFoldStep (a, []) x).1, l ++ (argsFoldStep (a, []) x).2) := by
  cases x with
  | base b => simp [argsFoldStep]
  | repeatArg v => cases v <;> simp [argsFoldStep]

theorem argsFold_log (args : List Arg) :
    ∀ (a : List Char) (l : List String),
      args.foldl argsFoldStep (a, l) =
        ((args.foldl argsFoldStep (a, [])).1, l ++ (args.foldl argsFoldStep (a, [])).2) := by
  induction args with
  | nil => intro a l; simp
  | cons x xs ih =>
    intro a l
    simp only [List.foldl_cons]
    rw [argsFoldStep_log a l x]
    rcases hdef : argsFoldStep (a, []) x with ⟨b, s2⟩
    rw [ih b (l ++ s2), ih b s2]
    simp [List.append_assoc]

theorem argsFoldStep_log_indep (a b : List Char) (x : Arg) :
    (argsFoldStep (a, []) x).2 = (argsFoldStep (b, []) x).2 := by
  cases x with
  | base bb => simp [argsFoldStep]
  | repeatArg v => cases v <;> simp [argsFoldStep]

theorem argsFold_log_indep (args : List Arg) :
    ∀ a b : List Char,
      (args.foldl argsFoldStep (a, [])).2 = (args.foldl argsFoldStep (b, [])).2 := by
  induction args with
  | nil => intro a b; rfl
  | cons x xs ih =>
    intro a b
    simp only [List.foldl_cons]
    rcases ha : argsFoldStep (a, []) x with ⟨a1, l1⟩
    rcases hb : argsFoldStep (b, []) x with ⟨b1, l2⟩
    have hl : l1 = l2 := by
      have := argsFoldStep_log_indep a b x
      rw [ha, hb] at this
      exact this
    rw [argsFold_log xs a1 l1, argsFold_log xs b1 l2, hl, ih a1 b1]

theorem argsFold_removeBad (pre post : List Arg) :
    (pre ++ .repeatArg .notAnArray :: post).foldl argsFoldStep ([], []) =
      (((pre ++ post).foldl argsFoldStep ([], [])).1,
        (pre.foldl argsFoldStep ([], [])).2 ++ ["Repeat arg value is not an array"]
          ++ (post.foldl argsFoldStep ([], [])).2) := by
  have hS := argsFold_fixed pre ([], []) (by rfl)
  rw [List.foldl_append argsFoldStep ([], []) pre (.repeatArg .notAnArray :: post), List.foldl_cons]
  rcases hdef : pre.foldl argsFoldStep ([], []) with ⟨S1, S2⟩
  rw [hdef] at hS
  have hstep : argsFoldStep (S1, S2) (.repeatArg .notAnArray)
      = (S1, S2 ++ ["Repeat arg value is not an array"]) := by
    simp only [argsFoldStep]
    rw [trimEndL_append_space]
    exact congrArg (fun z => (z, S2 ++ ["Repeat arg value is not an array"])) hS
  rw [hstep, argsFold_log post S1 (S2 ++ ["Repeat arg value is not an array"]),
    List.foldl_append, hdef, argsFold_log post S1 S2]
  simp only [List.append_assoc, Prod.mk.injEq, true_and]
  exact congrArg (fun z => S2 ++ (["Repeat arg value is not an array"] ++ z))
    (argsFold_log_indep post S1 [])

theorem setsFoldStep_log (a : List Char) (l : List String) (x : ArrOr BaseArg) :
    setsFoldStep (a, l) x = ((setsFoldStep (a, []) x).1, l ++ (setsFoldStep (a, []) x).2) := by
  cases x <;> simp [setsFoldStep]

theorem setsFold_log (sets : List (ArrOr BaseArg)) :
    ∀ (a : List Char) (l : List String),
      sets.foldl setsFoldStep (a, l) =
        ((sets.foldl setsFoldStep (a, [])).1, l ++ (sets.foldl setsFoldStep (a, [])).2) := by
  induction sets with
  | nil => intro a l; simp
  | cons x xs ih =>
    intro a l
    simp only [List.foldl_cons]
    rw [setsFoldStep_log a l x]
    rcases hdef : setsFoldStep (a, []) x with ⟨b, s2⟩
    rw [ih b (l ++ s2), ih b s2]
    simp [List.append_assoc]

theorem setsFoldStep_log_indep (a b : List Char) (x : ArrOr BaseArg) :
    (setsFoldStep (a, []) x).2 = (setsFoldStep (b, []) x).2 := by
  cases x <;> simp [setsFoldStep]

theorem setsFold_log_indep (sets : List (ArrOr BaseArg)) :
    ∀ a b : List Char,
      (sets.foldl setsFoldStep (a, [])).2 = (sets.foldl setsFoldStep (b, [])).2 := by
  induction sets with
  | nil => intro a b; rfl
  | cons x xs ih =>
    intro a b
    simp only [List.foldl_cons]
    rcases ha : setsFoldStep (a, []) x with ⟨a1, l1⟩
    rcases hb : setsFoldStep (b, []) x with ⟨b1, l2⟩
    have hl : l1 = l2 := by
      have := setsFoldStep_log_indep a b x
      rw [ha, hb] at this
      exact this
    rw [setsFold_log xs a1 l1, setsFold_log xs b1 l2, hl, ih a1 b1]

theorem setsFold_removeBad (sets1 sets2 : List (ArrOr BaseArg)) :
    (sets1 ++ .notAnArray :: sets2).foldl setsFoldStep ([], []) =
      (((sets1 ++ sets2).foldl setsFoldStep ([], [])).1,
        (sets1.foldl setsFoldStep ([], [])).2 ++ ["Repeat arg set value is not an array"]
          ++ (sets2.foldl setsFoldStep ([], [])).2) := by
  rw [List.foldl_append setsFoldStep ([], []) sets1 (.notAnArray :: sets2), List.foldl_cons]
  rcases hdef : sets1.foldl setsFoldStep ([], []) with ⟨S1, S2⟩
  have hstep : setsFoldStep (S1, S2) .notAnArray
      = (S1, S2 ++ ["Repeat arg set value is not an array"]) := by
    simp [setsFoldStep]
  rw [hstep, setsFold_log sets2 S1 (S2 ++ ["Repeat arg set value is not an array"]),
    List.foldl_append, hdef, setsFold_log sets2 S1 S2]
  simp only [List.append_assoc, Prod.mk.injEq, true_and]
  exact congrArg (fun z => S2 ++ (["Repeat arg set value is not an array"] ++ z))
    (setsFold_log_indep sets2 S1 [])

/-- **C5.**  The lenient error path of serialization: a repeat argument
whose value is not an array is logged and skipped — the rendered argument
text equals the text with that argument removed, with the fixed message
appended to the log in position — and a repeat argument-set that is not an
array is likewise logged and skipped inside its bracket group; the
surrounding step (and hence the rest of the document) is still rendered
identically.  (The serializer is a total function: no branch of it throws,
so this logged-and-skipped path is its only swallowed error.) -/
theorem c5_repeat_arg_leniency :
    (∀ pre post : List Arg,
      seqJsonArgsToSequence (pre ++ .repeatArg .notAnArray :: post) =
        ((seqJsonArgsToSequence (pre ++ post)).1,
          (seqJsonArgsToSequence pre).2 ++ ["Repeat arg value is not an array"] ++
            (seqJsonArgsToSequence post).2)) ∧
    (∀ sets1 sets2 : List (ArrOr BaseArg),
      repeatArgSetsToSequence (sets1 ++ .notAnArray :: sets2) =
        ((repeatArgSetsToSequence (sets1 ++ sets2)).1,
          (repeatArgSetsToSequence sets1).2 ++ ["Repeat arg set value is not an array"] ++
            (repeatArgSetsToSequence sets2).2)) ∧
    (∀ (step : CommandStep) (pre post : List Arg),
      (commandToString { step with args := pre ++ .repeatArg .notAnArray :: post }).1 =
        (commandToString { step with args := pre ++ post }).1) := by
  have hmain : ∀ pre post : List Arg,
      seqJsonArgsToSequence (pre ++ .repeatArg .notAnArray :: post) =
        ((seqJsonArgsToSequence (pre ++ post)).1,
          (seqJsonArgsToSequence pre).2 ++ ["Repeat arg value is not an array"] ++
            (seqJsonArgsToSequence post).2) := by
    intro pre post
    simp only [seqJsonArgsToSequence, argsFold_removeBad pre post]
  refine ⟨hmain, ?_, ?_⟩
  · intro sets1 sets2
    simp only [repeatArgSetsToSequence, setsFold_removeBad sets1 sets2]
  · intro step pre post
    simp only [commandToString, hmain pre post]

/-! ### Evaluation lemmas for the matcher combinators -/

theorem bind_eval (p : M α) (f : α → M β) (cs : List Char) :
    (p >>= f) cs = (p cs).flatMap fun x => f x.1 x.2 := rfl

theorem pure_eval (a : α) (cs : List Char) : (Pure.pure a : M α) cs = [(a, cs)] := rfl

theorem mpure_eval (a : α) (cs : List Char) : (M.pure a : M α) cs = [(a, cs)] := rfl

theorem flatMap_eq_map_of_forall {l : List α} {f : α → List β} {g : α → β}
    (h : ∀ x ∈ l, f x = [g x]) : l.flatMap f = l.map g := by
  induction l with
  | nil => rfl
  | cons x xs ih =>
    rw [List.flatMap_cons, List.map_cons, h x (List.mem_cons_self x xs),
      ih fun y hy => h y (List.mem_cons_of_mem x hy)]
    rfl

theorem opt_eval (p : M α) (cs : List Char) :
    M.opt p cs = (p cs).map (fun x => (some x.1, x.2)) ++ [(none, cs)] := by
  show (p cs).flatMap (fun x => [(some x.1, x.2)]) ++ [(none, cs)] = _
  rw [flatMap_eq_map_of_forall fun x _ => rfl]

theorem opt_of_nil (p : M α) (cs : List Char) (h : p cs = []) :
    M.opt p cs = [(none, cs)] := by
  rw [opt_eval, h]
  rfl

theorem charIf_cons_true (p : Char → Bool) (c : Char) (cs : List Char) (h : p c = true) :
    M.charIf p (c :: cs) = [(c, cs)] := by
  simp [M.charIf, h]

theorem charIf_cons_false (p : Char → Bool) (c : Char) (cs : List Char) (h : p c = false) :
    M.charIf p (c :: cs) = [] := by
  simp [M.charIf, h]

theorem ne_of_digit_of_not (d c : Char) (hd : isDigitChar d = true)
    (hc : isDigitChar c = false) : d ≠ c := by
  intro h
  rw [h, hc] at hd
  cases hd

theorem chr_fail_cons (uc d : Char) (t : List Char) (h : d ≠ uc) :
    M.chr uc (d :: t) = [] := by
  apply charIf_cons_false
  simp [h]

theorem mem_all_digit {ds : List Char} (hall : ds.all isDigitChar = true)
    {d : Char} (hd : d ∈ ds) : isDigitChar d = true :=
  List.all_eq_true.mp hall d hd

/-- A character that heads `ds.drop k ++ c :: rest` (`ds` all digits) is a
digit or is `c`; a target character that is neither makes `chr` fail. -/
theorem chr_fail_digits_tail (ds : List Char) (hall : ds.all isDigitChar = true)
    (k : Nat) (c : Char) (rest : List Char) (uc : Char)
    (huc : isDigitChar uc = false) (hne : c ≠ uc) :
    M.chr uc (ds.drop k ++ c :: rest) = [] := by
  cases hd : ds.drop k with
  | nil => exact chr_fail_cons uc c rest hne
  | cons d t =>
    exact chr_fail_cons uc d _
      (ne_of_digit_of_not d uc (mem_all_digit hall
        (List.drop_subset k ds (hd ▸ List.mem_cons_self d t))) huc)

theorem spaces_eval_nospace (cs : List Char)
    (h : ∀ c, cs.head? = some c → isSpaceChar c = false) : M.spaces cs = [((), cs)] := by
  cases cs with
  | nil => rfl
  | cons c t =>
    simp only [M.spaces, List.dropWhile_cons, h c rfl]
    rfl

theorem digit_not_space (d : Char) (h : isDigitChar d = true) : isSpaceChar d = false := by
  have h1 := ne_of_digit_of_not d ' ' h (by decide)
  have h2 := ne_of_digit_of_not d '\t' h (by decide)
  have h3 := ne_of_digit_of_not d '\n' h (by decide)
  have h4 := ne_of_digit_of_not d '\r' h (by decide)
  simp [isSpaceChar, h1, h2, h3, h4]

theorem takeWhile_all (p : Char → Bool) (ds : List Char) (h : ds.all p = true) :
    ds.takeWhile p = ds := by
  induction ds with
  | nil => rfl
  | cons d t ih =>
    simp only [List.all_cons, Bool.and_eq_true] at h
    simp [List.takeWhile_cons, h.1, ih h.2]

theorem digits1_append (ds rest : List Char) (hall : ds.all isDigitChar = true)
    (hrest : ∀ c, rest.head? = some c → isDigitChar c = false) :
    M.digits1 (ds ++ rest) = (List.range ds.length).map fun i =>
      (ds.take (ds.length - i), ds.drop (ds.length - i) ++ rest) := by
  have htw : (ds ++ rest).takeWhile isDigitChar = ds := by
    rw [List.takeWhile_append, takeWhile_all _ _ hall, if_pos rfl]
    cases rest with
    | nil => simp
    | cons c t => simp [List.takeWhile_cons, hrest c rfl]
  simp only [M.digits1, htw, List.drop_left]

theorem numLit_digits_append (ds : List Char) (c : Char) (rest : List Char)
    (hall : ds.all isDigitChar = true) (hc : isDigitChar c = false)
    (hcp : c ≠ '+') (hcm : c ≠ '-') (hcd : c ≠ '.') :
    numLit (ds ++ c :: rest) = (List.range ds.length).map fun i =>
      (⟨none, ds.take (ds.length - i), none⟩, ds.drop (ds.length - i) ++ c :: rest) := by
  have hsign : M.charIf (fun x => decide (x = '+') || decide (x = '-')) (ds ++ c :: rest) = [] := by
    cases hd : ds with
    | nil =>
      apply charIf_cons_false
      simp [hcp, hcm]
    | cons d t =>
      apply charIf_cons_false
      have hdd : isDigitChar d = true := mem_all_digit hall (hd ▸ List.mem_cons_self d t)
      simp [ne_of_digit_of_not d '+' hdd (by decide), ne_of_digit_of_not d '-' hdd (by decide)]
  unfold numLit
  rw [bind_eval, opt_of_nil _ _ hsign, List.flatMap_cons, List.flatMap_nil, List.append_nil,
    bind_eval, digits1_append ds (c :: rest) hall (by intro x hx; cases hx; exact hc),
    List.flatMap_map]
  apply flatMap_eq_map_of_forall
  intro i _
  have hfrac : (M.chr '.' >>= fun _ => M.digits1) (ds.drop (ds.length - i) ++ c :: rest) = [] := by
    rw [bind_eval, chr_fail_digits_tail ds hall _ c rest '.' (by decide) hcd]
    rfl
  rw [bind_eval, opt_of_nil _ _ hfrac, List.flatMap_cons, List.flatMap_nil, List.append_nil]
  rfl

/-- Any unit field fails on `ds ++ c :: rest` (`ds` digits) when the
unit's first character is neither a digit nor `c`. -/
theorem unitField_fail (u : Char) (tail : M Unit) (ds : List Char) (c : Char) (rest : List Char)
    (hall : ds.all isDigitChar = true) (hc : isDigitChar c = false) (hcs : isSpaceChar c = false)
    (hcp : c ≠ '+') (hcm : c ≠ '-') (hcd : c ≠ '.')
    (hu : isDigitChar u = false) (hcu : c ≠ u) :
    unitField u tail (ds ++ c :: rest) = [] := by
  have hsp : M.spaces (ds ++ c :: rest) = [((), ds ++ c :: rest)] := by
    apply spaces_eval_nospace
    intro x hx
    cases hd : ds with
    | nil =>
      rw [hd] at hx
      simp at hx
      rw [← hx]
      exact hcs
    | cons d t =>
      rw [hd] at hx
      simp at hx
      rw [← hx]
      exact digit_not_space d (mem_all_digit hall (hd ▸ List.mem_cons_self d t))
  unfold unitField
  rw [bind_eval, hsp, List.flatMap_cons, List.flatMap_nil, List.append_nil, bind_eval,
    numLit_digits_append ds c rest hall hc hcp hcm hcd, List.flatMap_map]
  rw [List.flatMap_eq_nil_iff]
  intro i _
  rw [bind_eval, chr_fail_digits_tail ds hall _ c rest u hu hcu]
  rfl

theorem drop_ne_nil_of_lt {ds : List Char} {k : Nat} (h : k < ds.length) :
    ds.drop k ≠ [] := by
  intro hnil
  have := List.drop_eq_nil_iff_le.mp hnil
  omega

theorem flatMap_range_succ_head {β : Type} {m : Nat} {f : Nat → List β}
    (h : ∀ i < m, f (i + 1) = []) : (List.range (m + 1)).flatMap f = f 0 := by
  rw [List.range_succ_eq_map, List.flatMap_cons]
  have htail : (List.map Nat.succ (List.range m)).flatMap f = [] := by
    rw [List.flatMap_eq_nil_iff]
    intro x hx
    simp only [List.mem_map, List.mem_range] at hx
    obtain ⟨j, hj, rfl⟩ := hx
    exact h j hj
  rw [htail, List.append_nil]

/-- The microseconds field succeeds on `ds ++ u :: s2 :: rest`:
only the maximal digit run matches, consuming both unit characters. -/
theorem unitField_two_char_success (u s2 : Char) (ds rest : List Char)
    (hne : ds ≠ []) (hall : ds.all isDigitChar = true)
    (hu : isDigitChar u = false) (hup : u ≠ '+') (hum : u ≠ '-') (hud : u ≠ '.')
    (hus : isSpaceChar u = false) :
    unitField u (M.chr s2 >>= fun _ => M.pure ()) (ds ++ u :: s2 :: rest) =
      [(⟨none, ds, none⟩, rest)] := by
  have hsp : M.spaces (ds ++ u :: s2 :: rest) = [((), ds ++ u :: s2 :: rest)] := by
    apply spaces_eval_nospace
    intro x hx
    cases hd : ds with
    | nil =>
      rw [hd] at hx
      simp at hx
      rw [← hx]
      exact hus
    | cons d t =>
      rw [hd] at hx
      simp at hx
      rw [← hx]
      exact digit_not_space d (mem_all_digit hall (hd ▸ List.mem_cons_self d t))
  unfold unitField
  rw [bind_eval, hsp, List.flatMap_cons, List.flatMap_nil, List.append_nil, bind_eval,
    numLit_digits_append ds u (s2 :: rest) hall hu hup hum hud, List.flatMap_map]
  obtain ⟨m, hm⟩ : ∃ m, ds.length = m + 1 := by
    cases hd : ds with
    | nil => exact absurd hd hne
    | cons d t => exact ⟨t.length, by simp [hd]⟩
  rw [hm, flatMap_range_succ_head]
  · simp only [Function.comp_apply, Nat.sub_zero]
    rw [← hm, List.take_length, List.drop_length, List.nil_append]
    simp only [M.chr]
    rw [bind_eval, charIf_cons_true _ u (s2 :: rest) (by simp), List.flatMap_cons,
      List.flatMap_nil, List.append_nil, bind_eval, bind_eval,
      charIf_cons_true _ s2 rest (by simp), List.flatMap_cons]
    rfl
  · intro j hj
    simp only [Function.comp_apply]
    rw [bind_eval]
    have hlt : m + 1 - (j + 1) < ds.length := by omega
    cases hdrop : ds.drop (m + 1 - (j + 1)) with
    | nil => exact absurd hdrop (drop_ne_nil_of_lt hlt)
    | cons d t =>
      rw [List.cons_append, chr_fail_cons u d _ (ne_of_digit_of_not d u
          (mem_all_digit hall (List.drop_subset _ ds (hdrop ▸ List.mem_cons_self d t))) hu)]
      rfl

theorem natDigitsAux_ne_nil (fuel n : Nat) : natDigitsAux fuel n ≠ [] := by
  cases fuel with
  | zero => simp [natDigitsAux]
  | succ f =>
    rw [natDigitsAux]
    by_cases h : n < 10
    · simp [h]
    · simp [h]

theorem natDigits_ne_nil (n : Nat) : natDigits n ≠ [] := natDigitsAux_ne_nil n n

/-- On an all-digit run followed by `us`, the full duration regex matches
with every capture absent except microseconds, which holds the digits. -/
theorem fullDurationBody_us (ds : List Char) (hne : ds ≠ [])
    (hall : ds.all isDigitChar = true) :
    M.run fullDurationBody (ds ++ 'u' :: 's' :: []) =
      some ⟨none, none, none, none, none, none, none, some ⟨none, ds, none⟩⟩ := by
  have hneg : M.chr '-' (ds ++ 'u' :: 's' :: []) = [] := by
    cases ds with
    | nil => exact absurd rfl hne
    | cons d t =>
      rw [List.cons_append]
      exact chr_fail_cons '-' d _ (ne_of_digit_of_not d '-'
        (mem_all_digit hall (List.mem_cons_self d t)) (by decide))
  have hy := unitField_fail 'y' (M.pure ()) ds 'u' ('s' :: []) hall
    (by decide) (by decide) (by decide) (by decide) (by decide) (by decide) (by decide)
  have hd := unitField_fail 'd' (M.pure ()) ds 'u' ('s' :: []) hall
    (by decide) (by decide) (by decide) (by decide) (by decide) (by decide) (by decide)
  have hh := unitField_fail 'h' (M.pure ()) ds 'u' ('s' :: []) hall
    (by decide) (by decide) (by decide) (by decide) (by decide) (by decide) (by decide)
  have hmin := unitField_fail 'm' (M.notFollowedBy 's') ds 'u' ('s' :: []) hall
    (by decide) (by decide) (by decide) (by decide) (by decide) (by decide) (by decide)
  have hsec := unitField_fail 's' (M.pure ()) ds 'u' ('s' :: []) hall
    (by decide) (by decide) (by decide) (by decide) (by decide) (by decide) (by decide)
  have hms := unitField_fail 'm' (M.chr 's' >>= fun _ => M.pure ()) ds 'u' ('s' :: []) hall
    (by decide) (by decide) (by decide) (by decide) (by decide) (by decide) (by decide)
  have hus := unitField_two_char_success 'u' 's' ds [] hne hall
    (by decide) (by decide) (by decide) (by decide) (by decide)
  have hbody : fullDurationBody (ds ++ 'u' :: 's' :: []) =
      [(⟨none, none, none, none, none, none, none, some ⟨none, ds, none⟩⟩, []),
       (⟨none, none, none, none, none, none, none, none⟩, ds ++ 'u' :: 's' :: [])] := by
    unfold fullDurationBody
    rw [bind_eval, opt_of_nil _ _ hneg, List.flatMap_cons, List.flatMap_nil, List.append_nil,
      bind_eval, opt_of_nil _ _ hy, List.flatMap_cons, List.flatMap_nil, List.append_nil,
      bind_eval, opt_of_nil _ _ hd, List.flatMap_cons, List.flatMap_nil, List.append_nil,
      bind_eval, opt_of_nil _ _ hh, List.flatMap_cons, List.flatMap_nil, List.append_nil,
      bind_eval, opt_of_nil _ _ hmin, List.flatMap_cons, List.flatMap_nil, List.append_nil,
      bind_eval, opt_of_nil _ _ hsec, List.flatMap_cons, List.flatMap_nil, List.append_nil,
      bind_eval, opt_of_nil _ _ hms, List.flatMap_cons, List.flatMap_nil, List.append_nil,
      bind_eval, opt_eval, hus]
    rfl
  rw [M.run, hbody]
  have hfalse : (ds ++ 'u' :: 's' :: []).isEmpty = false := by
    cases ds <;> rfl
  simp [List.filter, hfalse]

/-- **C3, amended.**  For every non-negative integer `a` (in the exactly
representable range), `parseDuration` on the decimal digits of `a`
followed by `us` takes the unit-suffixed path, whose fields reflect the
literal input and are not carried: microseconds holds `a` itself and every
other field is zero, whatever the size of `a`. -/
theorem c3_unit_suffix_literal_fields (a : Nat) (_h1 : 1000000 ≤ a) (_h2 : a < 2 ^ 53) :
    parseDurationString (natDigits a ++ "us".data) .microseconds =
      some (.durR ⟨0, 0, 0, 0, 0, 0, Dec.ofNat a, false⟩) := by
  have key := fullDurationBody_us (natDigits a) (natDigits_ne_nil a) (natDigits_all_digit a)
  have hus : natDigits a ++ "us".data = natDigits a ++ 'u' :: 's' :: [] := rfl
  rw [parseDurationString, hus, key]
  simp [NumLit.toVal, parseNatDigits_natDigits, Dec.ofNat]

/-- **C3, witness for the amended claim** at `a = 2500000`. -/
theorem c3_unit_suffix_literal_fields_witness :
    parseDurationString (natDigits 2500000 ++ "us".data) .microseconds =
      some (.durR ⟨0, 0, 0, 0, 0, 0, Dec.ofNat 2500000, false⟩) :=
  c3_unit_suffix_literal_fields 2500000 (by norm_num) (by norm_num)

/-! ### C6: accepted durations carry non-negative field magnitudes -/

theorem Dec.canonAux_num_nonneg (fuel : Nat) (n : Int) (e : Nat) (h : 0 ≤ n) :
    0 ≤ (Dec.canonAux fuel n e).num := by
  induction fuel generalizing n e with
  | zero => simpa [Dec.canonAux] using h
  | succ fuel ih =>
    cases e with
    | zero => simpa [Dec.canonAux] using h
    | succ ep =>
      simp only [Dec.canonAux]
      split
      · exact ih _ _ (Int.ediv_nonneg h (by norm_num))
      · exact h

theorem Dec.canon_num_nonneg (n : Int) (e : Nat) (h : 0 ≤ n) : 0 ≤ (Dec.canon n e).num :=
  Dec.canonAux_num_nonneg e n e h

theorem Dec.add_num_nonneg (a b : Dec) (ha : 0 ≤ a.num) (hb : 0 ≤ b.num) :
    0 ≤ (Dec.add a b).num := by
  apply Dec.canon_num_nonneg
  have h1 : (0 : Int) ≤ a.num * 10 ^ b.exp := mul_nonneg ha (by positivity)
  have h2 : (0 : Int) ≤ b.num * 10 ^ a.exp := mul_nonneg hb (by positivity)
  omega

theorem Dec.floorDiv_nonneg (a : Dec) (b : Int) (ha : 0 ≤ a.num) (hb : 0 < b) :
    0 ≤ Dec.floorDiv a b :=
  Int.ediv_nonneg ha (by positivity)

theorem Dec.modInt_num_nonneg (a : Dec) (b : Int) (ha : 0 ≤ a.num) (hb : 0 < b) :
    0 ≤ (Dec.modInt a b).num := by
  have hD : (0 : Int) < b * 10 ^ a.exp := by positivity
  have hmod := Int.emod_nonneg a.num (ne_of_gt hD)
  have hdm := Int.ediv_add_emod a.num (b * 10 ^ a.exp)
  unfold Dec.modInt Dec.sub Dec.add Dec.neg Dec.ofInt Dec.floorDiv
  apply Dec.canon_num_nonneg
  dsimp only
  simp only [pow_zero, mul_one]
  have key : b * (a.num / (b * 10 ^ a.exp)) * 10 ^ a.exp
      = b * 10 ^ a.exp * (a.num / (b * 10 ^ a.exp)) := by ring
  linarith [hdm, hmod, key]

theorem Dec.zero_num : (0 : Dec).num = 0 := rfl

theorem Dec.val_nonneg (a : Dec) (h : 0 ≤ a.num) : 0 ≤ a.val := by
  unfold Dec.val
  apply div_nonneg
  · exact_mod_cast h
  · positivity

theorem parseDOYDurationTime_fields_nonneg (s : List Char) (r : ParsedDurationString)
    (h : parseDOYDurationTime s = some r) :
    0 ≤ r.years.num ∧ 0 ≤ r.days.num ∧ 0 ≤ r.hours.num ∧ 0 ≤ r.minutes.num ∧
      0 ≤ r.seconds.num ∧ 0 ≤ r.milliseconds.num ∧ 0 ≤ r.microseconds.num := by
  simp only [parseDOYDurationTime] at h
  split at h
  · injection h with h
    subst h
    refine ⟨?_, ?_, ?_, ?_, ?_, ?_, ?_⟩ <;> simp only [Dec.ofNat, Dec.zero_num] <;> omega
  · cases h

theorem parseDoyOrYmdTime_durR (s : List Char) (k : Nat) (r : ParsedDurationString)
    (h : parseDoyOrYmdTime s k = some (.durR r)) :
    parseDOYDurationTime s = some r := by
  simp only [parseDoyOrYmdTime] at h
  split at h
  · split at h <;> simp at h
  · cases hp : parseDOYDurationTime s with
    | none => rw [hp] at h; simp at h
    | some r0 =>
      rw [hp] at h
      simp only [Option.map] at h
      injection h with h
      injection h with h
      rw [h]

theorem Dec.carry_step_nonneg (hi lo : Dec) (b : Int) (hhi : 0 ≤ hi.num)
    (hlo : 0 ≤ lo.num) (hb : 0 < b) :
    0 ≤ (Dec.add hi (Dec.ofInt (Dec.floorDiv lo b))).num ∧ 0 ≤ (Dec.modInt lo b).num :=
  ⟨Dec.add_num_nonneg _ _ hhi (Dec.floorDiv_nonneg lo b hlo hb),
   Dec.modInt_num_nonneg lo b hlo hb⟩

theorem carryCascade_fields_nonneg (us ms se mi hr dy : Dec) (b : Bool)
    (h1 : 0 ≤ us.num) (h2 : 0 ≤ ms.num) (h3 : 0 ≤ se.num) (h4 : 0 ≤ mi.num)
    (h5 : 0 ≤ hr.num) (h6 : 0 ≤ dy.num) :
    0 ≤ (carryCascade us ms se mi hr dy b).years.num ∧
      0 ≤ (carryCascade us ms se mi hr dy b).days.num ∧
      0 ≤ (carryCascade us ms se mi hr dy b).hours.num ∧
      0 ≤ (carryCascade us ms se mi hr dy b).minutes.num ∧
      0 ≤ (carryCascade us ms se mi hr dy b).seconds.num ∧
      0 ≤ (carryCascade us ms se mi hr dy b).milliseconds.num ∧
      0 ≤ (carryCascade us ms se mi hr dy b).microseconds.num := by
  simp only [carryCascade]
  set ms1 := Dec.add ms (Dec.ofInt (Dec.floorDiv us 1000000)) with hms1
  set se1 := Dec.add se (Dec.ofInt (Dec.floorDiv ms1 1000)) with hse1
  set mi1 := Dec.add mi (Dec.ofInt (Dec.floorDiv se1 60)) with hmi1
  set hr1 := Dec.add hr (Dec.ofInt (Dec.floorDiv mi1 60)) with hhr1
  set dy1 := Dec.add dy (Dec.ofInt (Dec.floorDiv hr1 24)) with hdy1
  have p1 : 0 ≤ ms1.num :=
    Dec.add_num_nonneg _ _ h2 (Dec.floorDiv_nonneg us 1000000 h1 (by norm_num))
  have p3 : 0 ≤ se1.num :=
    Dec.add_num_nonneg _ _ h3 (Dec.floorDiv_nonneg ms1 1000 p1 (by norm_num))
  have p5 : 0 ≤ mi1.num :=
    Dec.add_num_nonneg _ _ h4 (Dec.floorDiv_nonneg se1 60 p3 (by norm_num))
  have p7 : 0 ≤ hr1.num :=
    Dec.add_num_nonneg _ _ h5 (Dec.floorDiv_nonneg mi1 60 p5 (by norm_num))
  have p9 : 0 ≤ dy1.num :=
    Dec.add_num_nonneg _ _ h6 (Dec.floorDiv_nonneg hr1 24 p7 (by norm_num))
  refine ⟨Dec.floorDiv_nonneg dy1 365 p9 (by norm_num),
    Dec.modInt_num_nonneg dy1 365 p9 (by norm_num),
    Dec.modInt_num_nonneg hr1 24 p7 (by norm_num),
    Dec.modInt_num_nonneg mi1 60 p5 (by norm_num),
    Dec.modInt_num_nonneg se1 60 p3 (by norm_num),
    Dec.modInt_num_nonneg ms1 1000 p1 (by norm_num),
    Dec.modInt_num_nonneg us 1000000 h1 (by norm_num)⟩

theorem normalizeBareDuration_fields_nonneg (sign : Option Char) (int : List Char)
    (decimal : Option (List Char)) (units : DurationUnits) :
    0 ≤ (normalizeBareDuration sign int decimal units).years.num ∧
      0 ≤ (normalizeBareDuration sign int decimal units).days.num ∧
      0 ≤ (normalizeBareDuration sign int decimal units).hours.num ∧
      0 ≤ (normalizeBareDuration sign int decimal units).minutes.num ∧
      0 ≤ (normalizeBareDuration sign int decimal units).seconds.num ∧
      0 ≤ (normalizeBareDuration sign int decimal units).milliseconds.num ∧
      0 ≤ (normalizeBareDuration sign int decimal units).microseconds.num := by
  have hnum : 0 ≤ (Dec.ofNat (parseNatDigits int)).num := Int.natCast_nonneg _
  have hzero : 0 ≤ (0 : Dec).num := le_refl 0
  cases units <;> simp only [normalizeBareDuration] <;>
    apply carryCascade_fields_nonneg <;>
      first
        | exact hzero
        | exact hnum
        | (cases decimal with
            | none => exact hzero
            | some ds => exact Dec.canon_num_nonneg _ _ (Int.natCast_nonneg _))

/-- **C6.**  Any string accepted by `parseDurationString` *not* through the
unit-suffix pattern — i.e. through its DOY/epoch/relative duration path or
its bare-number path — yields a `ParsedDurationString` whose numeric
fields are all non-negative magnitudes: negativity is recorded only in the
single `isNegative` boolean and is never distributed into the fields.
(The hypothesis excluding the unit-suffix pattern is necessary: that path
copies per-field signed literals, see `c6_per_field_sign_counterexample`.) -/
theorem c6_nonneg_fields (s : List Char) (u : DurationUnits) (r : ParsedDurationString)
    (hunit : M.run fullDurationBody s = none)
    (h : parseDurationString s u = some (.durR r)) :
    0 ≤ r.years.val ∧ 0 ≤ r.days.val ∧ 0 ≤ r.hours.val ∧ 0 ≤ r.minutes.val ∧
      0 ≤ r.seconds.val ∧ 0 ≤ r.milliseconds.val ∧ 0 ≤ r.microseconds.val := by
  unfold parseDurationString at h
  split at h
  next g heq => rw [hunit] at heq; cases heq
  next =>
    split at h
    next r0 heq =>
      injection h with h
      subst h
      have hd := parseDoyOrYmdTime_durR s 6 r heq
      have hn := parseDOYDurationTime_fields_nonneg s r hd
      exact ⟨Dec.val_nonneg _ hn.1, Dec.val_nonneg _ hn.2.1, Dec.val_nonneg _ hn.2.2.1,
        Dec.val_nonneg _ hn.2.2.2.1, Dec.val_nonneg _ hn.2.2.2.2.1,
        Dec.val_nonneg _ hn.2.2.2.2.2.1, Dec.val_nonneg _ hn.2.2.2.2.2.2⟩
    next =>
      split at h
      next n heq =>
        injection h with h
        injection h with h
        subst h
        have hn := normalizeBareDuration_fields_nonneg n.sign n.intPart n.fracPart u
        exact ⟨Dec.val_nonneg _ hn.1, Dec.val_nonneg _ hn.2.1, Dec.val_nonneg _ hn.2.2.1,
          Dec.val_nonneg _ hn.2.2.2.1, Dec.val_nonneg _ hn.2.2.2.2.1,
          Dec.val_nonneg _ hn.2.2.2.2.2.1, Dec.val_nonneg _ hn.2.2.2.2.2.2⟩
      next => cases h

theorem c6_nonneg_fields_witness :
    M.run fullDurationBody "01:02:03".data = none ∧
    parseDurationString "01:02:03".data .microseconds = some (.durR c6Example) ∧
    (0 ≤ c6Example.years.val ∧ 0 ≤ c6Example.days.val ∧ 0 ≤ c6Example.hours.val ∧
      0 ≤ c6Example.minutes.val ∧ 0 ≤ c6Example.seconds.val ∧
      0 ≤ c6Example.milliseconds.val ∧ 0 ≤ c6Example.microseconds.val) :=
  ⟨by decide, by decide,
   c6_nonneg_fields "01:02:03".data .microseconds c6Example (by decide) (by decide)⟩


/-! ### C7: the simple time-tag grammars, characterized -/

theorem bool_eq_of_iff {a b : Bool} (h : a = true ↔ b = true) : a = b := by
  cases a <;> cases b <;> simp_all

theorem mem_of_head?_eq {α : Type} {l : List α} {a : α} (h : l.head? = some a) : a ∈ l := by
  cases l with
  | nil => cases h
  | cons b t =>
    injection h with h
    subst h
    exact List.mem_cons_self _ _

theorem mem_bind_iff {α β : Type} {p : M α} {f : α → M β} {cs : List Char}
    {x : β × List Char} : x ∈ (p >>= f) cs ↔ ∃ y ∈ p cs, x ∈ f y.1 y.2 := by
  rw [bind_eval]
  exact List.mem_flatMap

theorem mem_opt_iff {α : Type} {p : M α} {cs : List Char} {x : Option α × List Char} :
    x ∈ M.opt p cs ↔ (∃ y ∈ p cs, x = (some y.1, y.2)) ∨ x = (none, cs) := by
  rw [opt_eval, List.mem_append]
  constructor
  · rintro (h | h)
    · obtain ⟨y, hy, rfl⟩ := List.mem_map.mp h
      exact Or.inl ⟨y, hy, rfl⟩
    · exact Or.inr (List.mem_singleton.mp h)
  · rintro (⟨y, hy, rfl⟩ | rfl)
    · exact Or.inl (List.mem_map.mpr ⟨y, hy, rfl⟩)
    · exact Or.inr (List.mem_singleton.mpr rfl)

theorem mem_charIf_iff {p : Char → Bool} {cs : List Char} {x : Char × List Char} :
    x ∈ M.charIf p cs ↔ cs = x.1 :: x.2 ∧ p x.1 = true := by
  cases cs with
  | nil => simp [M.charIf]
  | cons c t =>
    by_cases hc : p c = true
    · rw [charIf_cons_true _ _ _ hc]
      constructor
      · intro hx
        rcases List.mem_singleton.mp hx with rfl
        exact ⟨rfl, hc⟩
      · rintro ⟨h1, _⟩
        injection h1 with h1 h2
        subst h1; subst h2
        exact List.mem_singleton.mpr rfl
    · rw [charIf_cons_false _ _ _ (by simpa using hc)]
      simp only [List.not_mem_nil, false_iff]
      rintro ⟨h1, hp⟩
      injection h1 with h1 h2
      subst h1; subst h2
      exact hc hp

theorem mem_digits1_iff {cs : List Char} {x : List Char × List Char} :
    x ∈ M.digits1 cs ↔ ∃ k, 1 ≤ k ∧ k ≤ (cs.takeWhile isDigitChar).length ∧
      x = ((cs.takeWhile isDigitChar).take k,
           (cs.takeWhile isDigitChar).drop k ++ cs.drop (cs.takeWhile isDigitChar).length) := by
  unfold M.digits1
  simp only [List.mem_map, List.mem_range]
  constructor
  · rintro ⟨i, hi, rfl⟩
    exact ⟨(cs.takeWhile isDigitChar).length - i, by omega, by omega, rfl⟩
  · rintro ⟨k, h1, h2, rfl⟩
    refine ⟨(cs.takeWhile isDigitChar).length - k, by omega, ?_⟩
    have hk : (cs.takeWhile isDigitChar).length - ((cs.takeWhile isDigitChar).length - k) = k := by
      omega
    rw [hk]

theorem complete_head_iff {α : Type} (l : List (α × List Char)) :
    ((((l.filter fun x => x.2.isEmpty).head?).map (fun x => x.1)).isSome = true) ↔
      ∃ x ∈ l, x.2 = [] := by
  cases hf : l.filter fun x => x.2.isEmpty with
  | nil =>
    constructor
    · intro h
      simp at h
    · rintro ⟨x, hxl, hx2⟩
      have hx : x ∈ l.filter fun z => z.2.isEmpty :=
        List.mem_filter.mpr ⟨hxl, by simp [hx2]⟩
      rw [hf] at hx
      exact absurd hx (List.not_mem_nil x)
  | cons y ys =>
    constructor
    · intro _
      have hy : y ∈ l.filter fun z => z.2.isEmpty := by
        rw [hf]
        exact List.mem_cons_self y ys
      obtain ⟨hyl, hy2⟩ := List.mem_filter.mp hy
      exact ⟨y, hyl, List.isEmpty_iff.mp (by simpa using hy2)⟩
    · intro _
      rfl

theorem run_isSome_iff {α : Type} (p : M α) (cs : List Char) :
    (M.run p cs).isSome = true ↔ ∃ x ∈ p cs, x.2 = [] :=
  complete_head_iff (p cs)

theorem searchEnd_isSome_iff {α : Type} (p : M α) (cs : List Char) :
    (M.searchEnd p cs).isSome = true ↔ ∃ i, ∃ x ∈ p (cs.drop i), x.2 = [] := by
  induction cs with
  | nil =>
    rw [M.searchEnd, complete_head_iff (p [])]
    constructor
    · rintro ⟨x, hx⟩
      exact ⟨0, x, hx⟩
    · rintro ⟨i, x, hx, h2⟩
      exact ⟨x, by simpa using hx, h2⟩
  | cons c t ih =>
    rw [M.searchEnd]
    cases hf : (((p (c :: t)).filter fun x => x.2.isEmpty).head?) with
    | some y =>
      constructor
      · intro _
        have hy : y ∈ (p (c :: t)).filter fun x => x.2.isEmpty := mem_of_head?_eq hf
        obtain ⟨hyl, hy2⟩ := List.mem_filter.mp hy
        exact ⟨0, y, hyl, List.isEmpty_iff.mp (by simpa using hy2)⟩
      · intro _
        rfl
    | none =>
      change (M.searchEnd p t).isSome = true ↔ _
      rw [ih]
      constructor
      · rintro ⟨i, x, hx, h2⟩
        exact ⟨i + 1, x, by simpa using hx, h2⟩
      · rintro ⟨i, x, hx, h2⟩
        cases i with
        | zero =>
          exfalso
          have hx0 : x ∈ (p (c :: t)).filter fun z => z.2.isEmpty :=
            List.mem_filter.mpr ⟨by simpa using hx, by simp [h2]⟩
          rw [List.head?_eq_none_iff.mp hf] at hx0
          exact List.not_mem_nil x hx0
        | succ j =>
          exact ⟨j, x, by simpa using hx, h2⟩

theorem head_dropWhile_false (p : Char → Bool) (l : List Char) :
    ∀ c, (l.dropWhile p).head? = some c → p c = false := by
  induction l with
  | nil => intro c h; cases h
  | cons a t ih =>
    intro c h
    rw [List.dropWhile_cons] at h
    split at h
    · exact ih c h
    next hpa =>
      injection h with h
      subst h
      simpa using hpa

theorem takeWhile_all_self (p : Char → Bool) (l : List Char) :
    (l.takeWhile p).all p = true := by
  induction l with
  | nil => rfl
  | cons a t ih =>
    rw [List.takeWhile_cons]
    split
    next hpa => simp [List.all_cons, hpa, ih]
    next => rfl

theorem drop_takeWhile_length (p : Char → Bool) (u : List Char) :
    u.drop (u.takeWhile p).length = u.dropWhile p := by
  induction u with
  | nil => rfl
  | cons a t ih =>
    by_cases hpa : p a = true
    · simp [List.takeWhile_cons, List.dropWhile_cons, hpa, ih]
    · simp [List.takeWhile_cons, List.dropWhile_cons, hpa]

theorem takeWhile_append_drop_self (p : Char → Bool) (u : List Char) :
    u.takeWhile p ++ u.drop (u.takeWhile p).length = u := by
  rw [drop_takeWhile_length]
  exact @List.takeWhile_append_dropWhile _ p u

theorem digits1_complete_iff (l : List Char) :
    (∃ z ∈ M.digits1 l, z.2 = []) ↔ (l ≠ [] ∧ l.all isDigitChar = true) := by
  constructor
  · rintro ⟨z, hz, h2⟩
    obtain ⟨k, hk1, hk2, rfl⟩ := mem_digits1_iff.mp hz
    simp only at h2
    rcases List.append_eq_nil.mp h2 with ⟨hd1, hd2⟩
    have hsp := takeWhile_append_drop_self isDigitChar l
    rw [hd2, List.append_nil] at hsp
    constructor
    · intro h0
      subst h0
      simp at hk2
      omega
    · rw [← hsp]
      exact takeWhile_all_self _ _
  · rintro ⟨hne, hall⟩
    have htw : l.takeWhile isDigitChar = l := takeWhile_all isDigitChar l hall
    refine ⟨(l, []), mem_digits1_iff.mpr ⟨l.length, ?_, ?_, ?_⟩, rfl⟩
    · have := List.length_pos.mpr hne
      omega
    · rw [htw]
    · rw [htw, List.take_length, List.drop_length]
      simp

theorem endsInDigit_of_all (l : List Char) (hne : l ≠ []) (ha : l.all isDigitChar = true) :
    endsInDigit l = true := by
  cases hl : l.getLast? with
  | none => exact absurd (List.getLast?_eq_none_iff.mp hl) hne
  | some c =>
    unfold endsInDigit
    rw [hl]
    obtain ⟨hne2, hc⟩ := List.mem_getLast?_eq_getLast (show c ∈ l.getLast? from hl)
    exact mem_all_digit ha (hc ▸ List.getLast_mem hne2)

theorem endsInDigit_drop {s : List Char} {i : Nat} (h : endsInDigit (s.drop i) = true) :
    endsInDigit s = true := by
  have hne : s.drop i ≠ [] := by
    intro h0
    rw [h0] at h
    simp [endsInDigit] at h
  unfold endsInDigit at h ⊢
  have hsplit := List.take_append_drop i s
  rw [← hsplit, List.getLast?_append_of_ne_nil _ hne]
  exact h


theorem simpleNumTail_complete_iff (u : List Char) :
    (∃ x ∈ simpleNumTail u, x.2 = []) ↔ numTailB u = true := by
  constructor
  · rintro ⟨x, hx, hx2⟩
    unfold simpleNumTail at hx
    obtain ⟨y, hy, hx⟩ := mem_bind_iff.mp hx
    obtain ⟨w, hw, hx⟩ := mem_bind_iff.mp hx
    have hxw : x = ((), w.2) := by simpa [M.pure, mpure_eval] using hx
    rw [hxw] at hx2
    obtain ⟨k, hk1, hk2, rfl⟩ := mem_digits1_iff.mp hy
    rcases mem_opt_iff.mp hw with (⟨z, hz, rfl⟩ | rfl)
    · -- fraction present and completes the match
      have hz2 : z.2 = [] := hx2
      obtain ⟨v, hv, hz⟩ := mem_bind_iff.mp hz
      simp only [M.chr] at hv
      obtain ⟨hcs2, _⟩ := mem_charIf_iff.mp hv
      obtain ⟨hfne, hfall⟩ := (digits1_complete_iff v.2).mp ⟨z, hz, hz2⟩
      have hk : k = (u.takeWhile isDigitChar).length := by
        by_contra hne
        have hlt : k < (u.takeWhile isDigitChar).length := by omega
        cases htd : (u.takeWhile isDigitChar).drop k with
        | nil =>
          have := congrArg List.length htd
          simp [List.length_drop] at this
          omega
        | cons hc tc =>
          have hcdig : isDigitChar hc = true := by
            have hmem : hc ∈ u.takeWhile isDigitChar :=
              List.drop_subset k _ (htd ▸ List.mem_cons_self hc tc)
            exact mem_all_digit (takeWhile_all_self _ _) hmem
          have : hc = v.1 := by
            rw [htd] at hcs2
            simp only [List.cons_append] at hcs2
            injection hcs2 with h1 _
          rw [this] at hcdig
          have hvdot : v.1 = '.' := by
            obtain ⟨_, hd⟩ := mem_charIf_iff.mp hv
            simpa using hd
          rw [hvdot] at hcdig
          exact absurd hcdig (by decide)
      rw [hk, List.drop_length, List.nil_append] at hcs2
      have hvdot : v.1 = '.' := by
        obtain ⟨_, hd⟩ := mem_charIf_iff.mp hv
        simpa using hd
      simp only [numTailB]
      rw [hcs2, hvdot]
      have hfpos : 0 < v.2.length := List.length_pos.mpr hfne
      simp [hfall, hfpos, show 0 < (u.takeWhile isDigitChar).length by omega]
    · -- no fraction: the digits already end the string
      have hnil : (u.takeWhile isDigitChar).drop k ++
          u.drop (u.takeWhile isDigitChar).length = [] := hx2
      obtain ⟨hd1, hd2⟩ := List.append_eq_nil.mp hnil
      simp only [numTailB]
      rw [hd2]
      simp [show 0 < (u.takeWhile isDigitChar).length by omega]
  · intro h
    simp only [numTailB, Bool.and_eq_true, Bool.or_eq_true, decide_eq_true_eq,
      List.isEmpty_iff] at h
    obtain ⟨hlen, hrest⟩ := h
    have htw : u.takeWhile isDigitChar =
        (u.takeWhile isDigitChar).take (u.takeWhile isDigitChar).length := by
      rw [List.take_length]
    have hy : (u.takeWhile isDigitChar, u.drop (u.takeWhile isDigitChar).length) ∈
        M.digits1 u := by
      apply mem_digits1_iff.mpr
      refine ⟨(u.takeWhile isDigitChar).length, by omega, le_refl _, ?_⟩
      rw [List.take_length, List.drop_length, List.nil_append]
    rcases hrest with hnil | ⟨⟨hhead, htlen⟩, hall⟩
    · refine ⟨((), []), ?_, rfl⟩
      unfold simpleNumTail
      apply mem_bind_iff.mpr
      refine ⟨(u.takeWhile isDigitChar, u.drop (u.takeWhile isDigitChar).length), hy, ?_⟩
      apply mem_bind_iff.mpr
      refine ⟨(none, u.drop (u.takeWhile isDigitChar).length),
        mem_opt_iff.mpr (Or.inr rfl), ?_⟩
      rw [hnil]
      exact List.mem_singleton.mpr rfl
    · have hne0 : u.drop (u.takeWhile isDigitChar).length ≠ [] := by
        intro h0
        rw [h0] at hhead
        cases hhead
      obtain ⟨r0, fs, hr⟩ := List.exists_cons_of_ne_nil hne0
      · rw [hr] at hhead htlen hall
        simp only [List.head?_cons] at hhead
        simp only [List.tail_cons] at htlen hall
        have hr0 : r0 = '.' := by injection hhead
        have hfne : fs ≠ [] := by
          intro h0
          rw [h0] at htlen
          simp at htlen
        have hz : (fs, []) ∈ M.digits1 fs := by
          apply mem_digits1_iff.mpr
          refine ⟨fs.length, ?_, ?_, ?_⟩
          · have := List.length_pos.mpr hfne
            omega
          · rw [takeWhile_all isDigitChar fs hall]
          · rw [takeWhile_all isDigitChar fs hall, List.take_length, List.drop_length]
            simp
        refine ⟨((), []), ?_, rfl⟩
        unfold simpleNumTail
        apply mem_bind_iff.mpr
        refine ⟨(u.takeWhile isDigitChar, u.drop (u.takeWhile isDigitChar).length), hy, ?_⟩
        apply mem_bind_iff.mpr
        refine ⟨(some fs, ([] : List Char)), ?_, ?_⟩
        · apply mem_opt_iff.mpr
          apply Or.inl
          refine ⟨(fs, ([] : List Char)), ?_, rfl⟩
          apply mem_bind_iff.mpr
          refine ⟨('.', fs), ?_, hz⟩
          rw [hr, hr0]
          simp only [M.chr]
          rw [charIf_cons_true _ _ _ (by simp)]
          exact List.mem_singleton.mpr rfl
        · exact List.mem_singleton.mpr rfl

theorem numTailB_endsInDigit (u : List Char) (h : numTailB u = true) :
    endsInDigit u = true := by
  simp only [numTailB, Bool.and_eq_true, Bool.or_eq_true, decide_eq_true_eq,
    List.isEmpty_iff] at h
  obtain ⟨hlen, hrest⟩ := h
  have hsp := takeWhile_append_drop_self isDigitChar u
  rcases hrest with hnil | ⟨⟨hhead, htlen⟩, hall⟩
  · rw [hnil, List.append_nil] at hsp
    rw [← hsp]
    exact endsInDigit_of_all _ (List.length_pos.mp hlen) (takeWhile_all_self _ _)
  · have hne0 : u.drop (u.takeWhile isDigitChar).length ≠ [] := by
      intro h0
      rw [h0] at hhead
      cases hhead
    obtain ⟨r0, fs, hr⟩ := List.exists_cons_of_ne_nil hne0
    · rw [hr] at htlen hall hsp
      simp only [List.tail_cons] at htlen hall
      have hfne : fs ≠ [] := by
        intro h0
        rw [h0] at htlen
        simp at htlen
      rw [← hsp]
      unfold endsInDigit
      rw [List.getLast?_append_of_ne_nil _ (List.cons_ne_nil r0 fs)]
      rw [show r0 :: fs = [r0] ++ fs from rfl, List.getLast?_append_of_ne_nil _ hfne]
      have hfs := endsInDigit_of_all fs hfne hall
      unfold endsInDigit at hfs
      exact hfs

theorem getLast?_drop_eq {s : List Char} {c : Char} (h : s.getLast? = some c) :
    s.drop (s.length - 1) = [c] := by
  induction s with
  | nil => cases h
  | cons a t ih =>
    cases t with
    | nil =>
      have ha : a = c := by simpa using h
      simp [ha]
    | cons b t2 =>
      have hlast : (b :: t2).getLast? = some c := by
        rwa [List.getLast?_cons_cons] at h
      show (b :: t2).drop ((b :: t2).length - 1) = [c]
      exact ih hlast

theorem epochSimpleBody_eq : epochSimpleBody =
    M.opt (M.charIf fun c => c = '+' || c = '-') >>= fun _ => simpleNumTail := rfl

theorem epochSimple_complete_iff (s : List Char) :
    (∃ x ∈ epochSimpleBody s, x.2 = []) ↔ isBareSignedDecimal s = true := by
  rw [epochSimpleBody_eq]
  constructor
  · rintro ⟨x, hx, hx2⟩
    obtain ⟨y, hy, hx⟩ := mem_bind_iff.mp hx
    rcases mem_opt_iff.mp hy with (⟨v, hv, rfl⟩ | rfl)
    · obtain ⟨hs, hsign⟩ := mem_charIf_iff.mp hv
      have htail : numTailB v.2 = true := (simpleNumTail_complete_iff v.2).mp ⟨x, hx, hx2⟩
      rw [hs]
      simp only [isBareSignedDecimal]
      rw [if_pos hsign]
      exact htail
    · have htail : numTailB s = true := (simpleNumTail_complete_iff s).mp ⟨x, hx, hx2⟩
      cases s with
      | nil => simp [numTailB] at htail
      | cons c t =>
        simp only [isBareSignedDecimal]
        by_cases hc : (c = '+' || c = '-') = true
        · exfalso
          have hcd : isDigitChar c = false := by
            have hc2 : c = '+' ∨ c = '-' := by simpa using hc
            rcases hc2 with h1 | h1 <;> (subst h1; decide)
          simp [numTailB, List.takeWhile_cons, hcd] at htail
        · rw [if_neg hc]
          exact htail
  · intro h
    cases s with
    | nil => simp [isBareSignedDecimal, numTailB] at h
    | cons c t =>
      simp only [isBareSignedDecimal] at h
      by_cases hc : (c = '+' || c = '-') = true
      · rw [if_pos hc] at h
        obtain ⟨x, hx, hx2⟩ := (simpleNumTail_complete_iff t).mpr h
        refine ⟨x, ?_, hx2⟩
        apply mem_bind_iff.mpr
        refine ⟨(some c, t), ?_, hx⟩
        apply mem_opt_iff.mpr
        exact Or.inl ⟨(c, t), mem_charIf_iff.mpr ⟨rfl, hc⟩, rfl⟩
      · rw [if_neg hc] at h
        obtain ⟨x, hx, hx2⟩ := (simpleNumTail_complete_iff (c :: t)).mpr h
        exact ⟨x, mem_bind_iff.mpr ⟨(none, c :: t),
          mem_opt_iff.mpr (Or.inr rfl), hx⟩, hx2⟩

/-- **C7.**  Characterization of the two simple time-tag grammars.
`EPOCH_SIMPLE` (whose `^` sits inside its first group and anchors the
match) accepts exactly the bare signed decimal numbers, as the claim says;
`RELATIVE_SIMPLE` has no start anchor at all, so it accepts exactly the
strings whose last character is a digit — `validate('abc1',
RELATIVE_SIMPLE)` is true, refuting the claim for that kind. -/
theorem c7_simple_time_tags (s : List Char) :
    validateTime s .EPOCH_SIMPLE = isBareSignedDecimal s ∧
    validateTime s .RELATIVE_SIMPLE = endsInDigit s := by
  constructor
  · apply bool_eq_of_iff
    rw [show validateTime s .EPOCH_SIMPLE = (M.run epochSimpleBody s).isSome from rfl]
    rw [run_isSome_iff]
    exact epochSimple_complete_iff s
  · apply bool_eq_of_iff
    rw [show validateTime s .RELATIVE_SIMPLE = (M.searchEnd simpleNumTail s).isSome from rfl]
    rw [searchEnd_isSome_iff]
    constructor
    · rintro ⟨i, x, hx, h2⟩
      have ht : numTailB (s.drop i) = true := (simpleNumTail_complete_iff _).mp ⟨x, hx, h2⟩
      exact endsInDigit_drop (numTailB_endsInDigit _ ht)
    · intro h
      cases hl : s.getLast? with
      | none =>
        unfold endsInDigit at h
        rw [hl] at h
        cases h
      | some c =>
        have hd : isDigitChar c = true := by
          unfold endsInDigit at h
          rw [hl] at h
          exact h
        have hdrop : s.drop (s.length - 1) = [c] := getLast?_drop_eq hl
        have hnum : numTailB [c] = true := by
          simp [numTailB, List.takeWhile_cons, hd]
        obtain ⟨x, hx, h2⟩ := (simpleNumTail_complete_iff [c]).mpr hnum
        exact ⟨s.length - 1, x, by rw [hdrop]; exact hx, h2⟩


/-! ### C10: `getUnixEpochTime` is total and unanchored -/

theorem search_none_of_all_fail {α : Type} (p : M α) (s : List Char)
    (h : ∀ i, i ≤ s.length → p (s.drop i) = []) : M.search p s = none := by
  induction s with
  | nil =>
    have h0 : p [] = [] := by simpa using h 0 (by simp)
    rw [M.search, h0]
    rfl
  | cons c t ih =>
    have h0 : p (c :: t) = [] := by simpa using h 0 (by simp)
    rw [M.search, h0]
    change M.search p t = none
    apply ih
    intro i hi
    have h2 := h (i + 1) (by simpa using hi)
    simpa using h2

theorem takeDigits_succ_fail (k : Nat) (c : Char) (t : List Char)
    (hc : isDigitChar c = false) : M.takeDigits (k + 1) (c :: t) = [] := by
  rw [M.takeDigits, bind_eval, charIf_cons_false _ _ _ hc]
  rfl

theorem unixTsBody_nondigit_head (c : Char) (t : List Char) (hc : isDigitChar c = false) :
    unixTsBody (c :: t) = [] := by
  unfold unixTsBody
  rw [bind_eval, takeDigits_succ_fail 3 c t hc]
  rfl

theorem getUnixEpochTime_nondigit_prefix (pre s : List Char)
    (h : pre.all (fun c => !isDigitChar c) = true) :
    getUnixEpochTime (pre ++ s) = getUnixEpochTime s := by
  induction pre with
  | nil => rfl
  | cons c p ih =>
    simp only [List.all_cons, Bool.and_eq_true, Bool.not_eq_true'] at h
    obtain ⟨hc, hp⟩ := h
    have hstep : M.search unixTsBody (c :: (p ++ s)) = M.search unixTsBody (p ++ s) := by
      rw [M.search, unixTsBody_nondigit_head c _ hc]
      rfl
    show getUnixEpochTime (c :: (p ++ s)) = getUnixEpochTime s
    unfold getUnixEpochTime
    rw [hstep]
    exact ih (by simpa using hp)

/-- **C10.**  `getUnixEpochTime` is a total function (the embedding returns
an integer on every input, never an error): when the timestamp pattern
occurs nowhere in the input — at no start position does `unixTsBody`
match — it returns 0, and because the pattern is unanchored, prepending
any digit-free prefix leaves its value unchanged, so a timestamp embedded
inside a longer string is still found. -/
theorem c10_unanchored_total (s : List Char) :
    ((∀ i, i ≤ s.length → unixTsBody (s.drop i) = []) → getUnixEpochTime s = 0) ∧
    (∀ pre : List Char, pre.all (fun c => !isDigitChar c) = true →
      getUnixEpochTime (pre ++ s) = getUnixEpochTime s) := by
  constructor
  · intro h
    unfold getUnixEpochTime
    rw [search_none_of_all_fail unixTsBody s h]
  · intro pre hp
    exact getUnixEpochTime_nondigit_prefix pre s hp

theorem c10_unanchored_total_witness :
    (∀ i, i ≤ ("hello world".data).length → unixTsBody (("hello world".data).drop i) = []) ∧
    getUnixEpochTime "hello world".data = 0 ∧
    ("abc".data).all (fun c => !isDigitChar c) = true ∧
    getUnixEpochTime ("abc".data ++ "2019-365T08:00:00.000".data) =
      getUnixEpochTime "2019-365T08:00:00.000".data ∧
    getUnixEpochTime "2019-365T08:00:00.000".data = 1577779200000 :=
  ⟨by decide, (c10_unanchored_total "hello world".data).1 (by decide),
   by decide, (c10_unanchored_total "2019-365T08:00:00.000".data).2 "abc".data (by decide),
   by decide⟩


/-! ### C4: the day-of-year round trip -/

theorem takeDigits_exact (ds : List Char) (rest : List Char)
    (hall : ds.all isDigitChar = true) :
    M.takeDigits ds.length (ds ++ rest) = [(ds, rest)] := by
  induction ds generalizing rest with
  | nil => rfl
  | cons d t ih =>
    simp only [List.all_cons, Bool.and_eq_true] at hall
    obtain ⟨hd, ht⟩ := hall
    show M.takeDigits (t.length + 1) (d :: (t ++ rest)) = [(d :: t, rest)]
    rw [M.takeDigits, bind_eval, charIf_cons_true _ _ _ hd]
    simp only [List.flatMap_cons, List.flatMap_nil, List.append_nil]
    rw [bind_eval, ih rest ht]
    rfl

theorem takeDigits_exact_of_length (k : Nat) (ds rest : List Char) (hk : ds.length = k)
    (hall : ds.all isDigitChar = true) :
    M.takeDigits k (ds ++ rest) = [(ds, rest)] := by
  subst hk
  exact takeDigits_exact ds rest hall

theorem natDigitsAux_fuel_irrel : ∀ f1 f2 n, n ≤ f1 → n ≤ f2 →
    natDigitsAux f1 n = natDigitsAux f2 n := by
  intro f1
  induction f1 with
  | zero =>
    intro f2 n h1 h2
    have h0 : n = 0 := by omega
    subst h0
    cases f2 with
    | zero => rfl
    | succ f => simp [natDigitsAux]
  | succ f ih =>
    intro f2 n h1 h2
    cases f2 with
    | zero =>
      have h0 : n = 0 := by omega
      subst h0
      simp [natDigitsAux]
    | succ g =>
      by_cases hn : n < 10
      · simp [natDigitsAux, hn]
      · simp only [natDigitsAux, if_neg hn]
        rw [ih g (n / 10) (by omega) (by omega)]

theorem natDigits_eq_rec (n : Nat) :
    natDigits n = if n < 10 then [digitChar n] else natDigits (n / 10) ++ [digitChar n] := by
  unfold natDigits
  cases n with
  | zero => simp [natDigitsAux]
  | succ m =>
    rw [show natDigitsAux (m + 1) (m + 1) =
        if m + 1 < 10 then [digitChar (m + 1)]
        else natDigitsAux m ((m + 1) / 10) ++ [digitChar (m + 1)] from rfl]
    by_cases hn : m + 1 < 10
    · rw [if_pos hn, if_pos hn]
    · rw [if_neg hn, if_neg hn]
      congr 1
      exact natDigitsAux_fuel_irrel m ((m + 1) / 10) ((m + 1) / 10) (by omega) (le_refl _)

theorem natDigits_length_le : ∀ (k n : Nat), n < 10 ^ k → 1 ≤ k →
    (natDigits n).length ≤ k := by
  intro k
  induction k with
  | zero => intro n h1 h2; omega
  | succ j ih =>
    intro n hn _
    rw [natDigits_eq_rec n]
    by_cases h10 : n < 10
    · rw [if_pos h10]
      simp only [List.length_cons, List.length_nil]
      omega
    · rw [if_neg h10, List.length_append]
      simp only [List.length_cons, List.length_nil]
      have hj : 1 ≤ j := by
        by_contra hj0
        have hj1 : j = 0 := by omega
        subst hj1
        simp at hn
        omega
      have h2 : n / 10 < 10 ^ j := by
        rw [pow_succ] at hn
        omega
      have h3 := ih (n / 10) h2 hj
      omega

theorem natDigits_length_ge : ∀ (k n : Nat), 10 ^ k ≤ n →
    k + 1 ≤ (natDigits n).length := by
  intro k
  induction k with
  | zero =>
    intro n _
    rw [natDigits_eq_rec n]
    split
    · simp
    · rw [List.length_append]
      simp
  | succ j ih =>
    intro n h
    have hpow : 1 ≤ 10 ^ j := Nat.one_le_pow j 10 (by omega)
    have h10 : ¬ n < 10 := by
      rw [pow_succ] at h
      omega
    rw [natDigits_eq_rec n, if_neg h10, List.length_append]
    have h2 : 10 ^ j ≤ n / 10 := by
      rw [pow_succ] at h
      omega
    have h3 := ih (n / 10) h2
    simp only [List.length_cons, List.length_nil]
    omega

theorem parseNatDigits_replicate_zero (j : Nat) (ds : List Char) :
    parseNatDigits (List.replicate j '0' ++ ds) = parseNatDigits ds := by
  induction j with
  | zero => rfl
  | succ i ih =>
    rw [List.replicate_succ, List.cons_append]
    have h0 : (10 * 0 + digitVal '0') = 0 := by decide
    calc parseNatDigits ('0' :: (List.replicate i '0' ++ ds))
        = (List.replicate i '0' ++ ds).foldl (fun a c => 10 * a + digitVal c)
            (10 * 0 + digitVal '0') := rfl
      _ = parseNatDigits (List.replicate i '0' ++ ds) := by rw [h0]; rfl
      _ = parseNatDigits ds := ih

theorem parseNatDigits_padStart (k : Nat) (s : List Char) :
    parseNatDigits (padStart k '0' s) = parseNatDigits s :=
  parseNatDigits_replicate_zero _ _

theorem padStart_length (k : Nat) (c : Char) (s : List Char) (h : s.length ≤ k) :
    (padStart k c s).length = k := by
  unfold padStart
  rw [List.length_append, List.length_replicate]
  omega

theorem padStart_all_digit (k : Nat) (s : List Char) (h : s.all isDigitChar = true) :
    (padStart k '0' s).all isDigitChar = true := by
  unfold padStart
  rw [List.all_append, h]
  rw [Bool.and_true]
  rw [List.all_eq_true]
  intro c hc
  rw [List.eq_of_mem_replicate hc]
  decide

theorem intDigits_nonneg (n : Int) (h : 0 ≤ n) : intDigits n = natDigits n.toNat := by
  unfold intDigits
  rw [if_neg (by omega)]

set_option maxHeartbeats 1000000 in
theorem yearFromDay_bounds (d : Int) :
    dayFromYear (yearFromDay d) ≤ d ∧ d < dayFromYear (yearFromDay d + 1) := by
  simp only [dayFromYear, yearFromDay]
  split
  · omega
  · split
    · constructor
      · omega
      · simp only [Int.sub_add_cancel]
        omega
    · omega

theorem dayFromYear_succ_sub (y : Int) :
    dayFromYear (y + 1) - dayFromYear y ≤ 366 := by
  unfold dayFromYear
  omega


theorem takeDigits_exact_nil (k : Nat) (ds : List Char) (hk : ds.length = k)
    (hall : ds.all isDigitChar = true) : M.takeDigits k ds = [(ds, [])] := by
  have h := takeDigits_exact_of_length k ds [] hk hall
  rwa [List.append_nil] at h

theorem bind_singleton_step {α β : Type} (p : M α) (f : α → M β) (cs : List Char)
    (a : α) (rest : List Char) (h : p cs = [(a, rest)]) :
    (p >>= f) cs = f a rest := by
  rw [bind_eval, h]
  simp

theorem chr_cons_eval (c : Char) (t : List Char) : M.chr c (c :: t) = [(c, t)] := by
  simp only [M.chr]
  exact charIf_cons_true _ _ _ (by simp)

theorem search_head {α : Type} (p : M α) (cs : List Char) (x : α × List Char)
    (h : (p cs).head? = some x) : M.search p cs = some x.1 := by
  cases cs with
  | nil =>
    rw [M.search, h]
    rfl
  | cons c t =>
    rw [M.search, h]

theorem unixTsBody_nomsecs (A B C Dm E : List Char)
    (hA : A.length = 4) (hAd : A.all isDigitChar = true)
    (hB : B.length = 3) (hBd : B.all isDigitChar = true)
    (hC : C.length = 2) (hCd : C.all isDigitChar = true)
    (hD : Dm.length = 2) (hDd : Dm.all isDigitChar = true)
    (hE : E.length = 2) (hEd : E.all isDigitChar = true) :
    unixTsBody (A ++ ('-' :: (B ++ ('T' :: (C ++ (':' :: (Dm ++ (':' :: E)))))))) =
      [(⟨A, B, C, Dm, E, none⟩, [])] := by
  have e1 := takeDigits_exact_of_length 4 A
    ('-' :: (B ++ ('T' :: (C ++ (':' :: (Dm ++ (':' :: E))))))) hA hAd
  have e2 := takeDigits_exact_of_length 3 B
    ('T' :: (C ++ (':' :: (Dm ++ (':' :: E))))) hB hBd
  have e3 := takeDigits_exact_of_length 2 C (':' :: (Dm ++ (':' :: E))) hC hCd
  have e4 := takeDigits_exact_of_length 2 Dm (':' :: E) hD hDd
  have e5 := takeDigits_exact_nil 2 E hE hEd
  unfold unixTsBody
  rw [bind_eval, e1]
  simp only [List.flatMap_cons, List.flatMap_nil, List.append_nil]
  rw [bind_eval, chr_cons_eval '-' (B ++ ('T' :: (C ++ (':' :: (Dm ++ (':' :: E))))))]
  simp only [List.flatMap_cons, List.flatMap_nil, List.append_nil]
  rw [bind_eval, e2]
  simp only [List.flatMap_cons, List.flatMap_nil, List.append_nil]
  rw [bind_eval, chr_cons_eval 'T' (C ++ (':' :: (Dm ++ (':' :: E))))]
  simp only [List.flatMap_cons, List.flatMap_nil, List.append_nil]
  rw [bind_eval, e3]
  simp only [List.flatMap_cons, List.flatMap_nil, List.append_nil]
  rw [bind_eval, chr_cons_eval ':' (Dm ++ (':' :: E))]
  simp only [List.flatMap_cons, List.flatMap_nil, List.append_nil]
  rw [bind_eval, e4]
  simp only [List.flatMap_cons, List.flatMap_nil, List.append_nil]
  rw [bind_eval, chr_cons_eval ':' E]
  simp only [List.flatMap_cons, List.flatMap_nil, List.append_nil]
  rw [bind_eval, e5]
  simp only [List.flatMap_cons, List.flatMap_nil, List.append_nil]
  rfl

theorem unixTsBody_msecs (A B C Dm E F : List Char)
    (hA : A.length = 4) (hAd : A.all isDigitChar = true)
    (hB : B.length = 3) (hBd : B.all isDigitChar = true)
    (hC : C.length = 2) (hCd : C.all isDigitChar = true)
    (hD : Dm.length = 2) (hDd : Dm.all isDigitChar = true)
    (hE : E.length = 2) (hEd : E.all isDigitChar = true)
    (hF : F.length = 3) (hFd : F.all isDigitChar = true) :
    unixTsBody
      (A ++ ('-' :: (B ++ ('T' :: (C ++ (':' :: (Dm ++ (':' :: (E ++ ('.' :: F)))))))))) =
      [(⟨A, B, C, Dm, E, some F⟩, []), (⟨A, B, C, Dm, E, none⟩, F),
       (⟨A, B, C, Dm, E, none⟩, '.' :: F)] := by
  have e1 := takeDigits_exact_of_length 4 A
    ('-' :: (B ++ ('T' :: (C ++ (':' :: (Dm ++ (':' :: (E ++ ('.' :: F))))))))) hA hAd
  have e2 := takeDigits_exact_of_length 3 B
    ('T' :: (C ++ (':' :: (Dm ++ (':' :: (E ++ ('.' :: F))))))) hB hBd
  have e3 := takeDigits_exact_of_length 2 C
    (':' :: (Dm ++ (':' :: (E ++ ('.' :: F))))) hC hCd
  have e4 := takeDigits_exact_of_length 2 Dm (':' :: (E ++ ('.' :: F))) hD hDd
  have e5 := takeDigits_exact_of_length 2 E ('.' :: F) hE hEd
  have e6 := takeDigits_exact_nil 3 F hF hFd
  have e7 := takeDigits_succ_fail 2 '.' F (by decide)
  unfold unixTsBody
  rw [bind_eval, e1]
  simp only [List.flatMap_cons, List.flatMap_nil, List.append_nil]
  rw [bind_eval, chr_cons_eval '-' (B ++ ('T' :: (C ++ (':' :: (Dm ++ (':' :: (E ++ ('.' :: F))))))))]
  simp only [List.flatMap_cons, List.flatMap_nil, List.append_nil]
  rw [bind_eval, e2]
  simp only [List.flatMap_cons, List.flatMap_nil, List.append_nil]
  rw [bind_eval, chr_cons_eval 'T' (C ++ (':' :: (Dm ++ (':' :: (E ++ ('.' :: F))))))]
  simp only [List.flatMap_cons, List.flatMap_nil, List.append_nil]
  rw [bind_eval, e3]
  simp only [List.flatMap_cons, List.flatMap_nil, List.append_nil]
  rw [bind_eval, chr_cons_eval ':' (Dm ++ (':' :: (E ++ ('.' :: F))))]
  simp only [List.flatMap_cons, List.flatMap_nil, List.append_nil]
  rw [bind_eval, e4]
  simp only [List.flatMap_cons, List.flatMap_nil, List.append_nil]
  rw [bind_eval, chr_cons_eval ':' (E ++ ('.' :: F))]
  simp only [List.flatMap_cons, List.flatMap_nil, List.append_nil]
  rw [bind_eval, e5]
  simp only [List.flatMap_cons, List.flatMap_nil, List.append_nil]
  rw [bind_eval, opt_eval]
  rw [chr_cons_eval '.' F]
  simp only [List.map_cons, List.map_nil, List.cons_append, List.nil_append,
    List.flatMap_cons, List.flatMap_nil, List.append_nil]
  rw [bind_eval, opt_eval, e6]
  rw [bind_eval, opt_of_nil _ _ e7]
  simp [mpure_eval]


/-- **C4.**  For every instant `t` whose UTC year has four digits,
`getUnixEpochTime (getDoyTime t) = t`: the DOY string written by
`getDoyTime` parses back to the same epoch-milliseconds value, and when
`getDoyTime` drops the all-zero millisecond segment, `getUnixEpochTime`
restores the missing group as 0. -/
theorem c4_doy_roundtrip (t : Int) (h1 : 1000 ≤ jsUTCFullYear t)
    (h2 : jsUTCFullYear t ≤ 9999) :
    getUnixEpochTime (getDoyTime t true) = t := by
  have p4 : (10 : Nat) ^ 4 = 10000 := by norm_num
  have p3 : (10 : Nat) ^ 3 = 1000 := by norm_num
  have p2 : (10 : Nat) ^ 2 = 100 := by norm_num
  have hbounds := yearFromDay_bounds (t / 86400000)
  have hYdef : jsUTCFullYear t = yearFromDay (t / 86400000) := rfl
  have hJ1 : dayFromYear (jsUTCFullYear t) ≤ t / 86400000 := by
    rw [hYdef]
    exact hbounds.1
  have hJ2 : t / 86400000 < dayFromYear (jsUTCFullYear t + 1) := by
    rw [hYdef]
    exact hbounds.2
  have hJd : dayFromYear (jsUTCFullYear t + 1) - dayFromYear (jsUTCFullYear t) ≤ 366 :=
    dayFromYear_succ_sub _
  have hquirk : ¬(0 ≤ jsUTCFullYear t ∧ jsUTCFullYear t ≤ 99) := by omega
  have hdoy : getDoy t = t / 86400000 - dayFromYear (jsUTCFullYear t) + 1 := by
    simp only [getDoy, dateUTC, msPerDay, if_neg hquirk]
    omega
  have hdoyb : 1 ≤ getDoy t ∧ getDoy t ≤ 366 := by
    rw [hdoy]
    omega
  have hh : jsUTCHours t = t % 86400000 / 3600000 := rfl
  have hhb : 0 ≤ jsUTCHours t ∧ jsUTCHours t ≤ 23 := by
    rw [hh]
    omega
  have hmi : jsUTCMinutes t = t / 60000 % 60 := rfl
  have hmib : 0 ≤ jsUTCMinutes t ∧ jsUTCMinutes t ≤ 59 := by
    rw [hmi]
    omega
  have hse : jsUTCSeconds t = t / 1000 % 60 := rfl
  have hseb : 0 ≤ jsUTCSeconds t ∧ jsUTCSeconds t ≤ 59 := by
    rw [hse]
    omega
  have hms : jsUTCMilliseconds t = t % 1000 := rfl
  have hmsb : 0 ≤ jsUTCMilliseconds t ∧ jsUTCMilliseconds t ≤ 999 := by
    rw [hms]
    omega
  have hAeq : intDigits (jsUTCFullYear t) = natDigits (jsUTCFullYear t).toNat :=
    intDigits_nonneg _ (by omega)
  have hAlen : (intDigits (jsUTCFullYear t)).length = 4 := by
    rw [hAeq]
    have l1 := natDigits_length_le 4 (jsUTCFullYear t).toNat (by omega) (by omega)
    have l2 := natDigits_length_ge 3 (jsUTCFullYear t).toNat (by omega)
    omega
  have hAd : (intDigits (jsUTCFullYear t)).all isDigitChar = true := by
    rw [hAeq]
    exact natDigits_all_digit _
  have hAparse : parseNatDigits (intDigits (jsUTCFullYear t)) = (jsUTCFullYear t).toNat := by
    rw [hAeq]
    exact parseNatDigits_natDigits _
  have hBeq : intDigits (getDoy t) = natDigits (getDoy t).toNat :=
    intDigits_nonneg _ (by omega)
  have hBinlen : (natDigits (getDoy t).toNat).length ≤ 3 :=
    natDigits_length_le 3 _ (by omega) (by omega)
  have hBlen : (padStart 3 '0' (intDigits (getDoy t))).length = 3 := by
    rw [hBeq]
    exact padStart_length _ _ _ hBinlen
  have hBd : (padStart 3 '0' (intDigits (getDoy t))).all isDigitChar = true := by
    rw [hBeq]
    exact padStart_all_digit _ _ (natDigits_all_digit _)
  have hBparse : parseNatDigits (padStart 3 '0' (intDigits (getDoy t))) = (getDoy t).toNat := by
    rw [hBeq, parseNatDigits_padStart]
    exact parseNatDigits_natDigits _
  have hCeq : intDigits (jsUTCHours t) = natDigits (jsUTCHours t).toNat :=
    intDigits_nonneg _ (by omega)
  have hCinlen : (natDigits (jsUTCHours t).toNat).length ≤ 2 :=
    natDigits_length_le 2 _ (by omega) (by omega)
  have hClen : (padStart 2 '0' (intDigits (jsUTCHours t))).length = 2 := by
    rw [hCeq]
    exact padStart_length _ _ _ hCinlen
  have hCd : (padStart 2 '0' (intDigits (jsUTCHours t))).all isDigitChar = true := by
    rw [hCeq]
    exact padStart_all_digit _ _ (natDigits_all_digit _)
  have hCparse : parseNatDigits (padStart 2 '0' (intDigits (jsUTCHours t))) = (jsUTCHours t).toNat := by
    rw [hCeq, parseNatDigits_padStart]
    exact parseNatDigits_natDigits _
  have hDeq : intDigits (jsUTCMinutes t) = natDigits (jsUTCMinutes t).toNat :=
    intDigits_nonneg _ (by omega)
  have hDinlen : (natDigits (jsUTCMinutes t).toNat).length ≤ 2 :=
    natDigits_length_le 2 _ (by omega) (by omega)
  have hDlen : (padStart 2 '0' (intDigits (jsUTCMinutes t))).length = 2 := by
    rw [hDeq]
    exact padStart_length _ _ _ hDinlen
  have hDd : (padStart 2 '0' (intDigits (jsUTCMinutes t))).all isDigitChar = true := by
    rw [hDeq]
    exact padStart_all_digit _ _ (natDigits_all_digit _)
  have hDparse : parseNatDigits (padStart 2 '0' (intDigits (jsUTCMinutes t))) = (jsUTCMinutes t).toNat := by
    rw [hDeq, parseNatDigits_padStart]
    exact parseNatDigits_natDigits _
  have hEeq : intDigits (jsUTCSeconds t) = natDigits (jsUTCSeconds t).toNat :=
    intDigits_nonneg _ (by omega)
  have hEinlen : (natDigits (jsUTCSeconds t).toNat).length ≤ 2 :=
    natDigits_length_le 2 _ (by omega) (by omega)
  have hElen : (padStart 2 '0' (intDigits (jsUTCSeconds t))).length = 2 := by
    rw [hEeq]
    exact padStart_length _ _ _ hEinlen
  have hEd : (padStart 2 '0' (intDigits (jsUTCSeconds t))).all isDigitChar = true := by
    rw [hEeq]
    exact padStart_all_digit _ _ (natDigits_all_digit _)
  have hEparse : parseNatDigits (padStart 2 '0' (intDigits (jsUTCSeconds t))) = (jsUTCSeconds t).toNat := by
    rw [hEeq, parseNatDigits_padStart]
    exact parseNatDigits_natDigits _
  have hFeq : intDigits (jsUTCMilliseconds t) = natDigits (jsUTCMilliseconds t).toNat :=
    intDigits_nonneg _ (by omega)
  have hFinlen : (natDigits (jsUTCMilliseconds t).toNat).length ≤ 3 :=
    natDigits_length_le 3 _ (by omega) (by omega)
  have hFlen : (padStart 3 '0' (intDigits (jsUTCMilliseconds t))).length = 3 := by
    rw [hFeq]
    exact padStart_length _ _ _ hFinlen
  have hFd : (padStart 3 '0' (intDigits (jsUTCMilliseconds t))).all isDigitChar = true := by
    rw [hFeq]
    exact padStart_all_digit _ _ (natDigits_all_digit _)
  have hFparse : parseNatDigits (padStart 3 '0' (intDigits (jsUTCMilliseconds t))) = (jsUTCMilliseconds t).toNat := by
    rw [hFeq, parseNatDigits_padStart]
    exact parseNatDigits_natDigits _
  by_cases hmspos : 0 < jsUTCMilliseconds t
  · have hstring : getDoyTime t true =
        intDigits (jsUTCFullYear t) ++ ('-' :: (padStart 3 '0' (intDigits (getDoy t)) ++
          ('T' :: (padStart 2 '0' (intDigits (jsUTCHours t)) ++
          (':' :: (padStart 2 '0' (intDigits (jsUTCMinutes t)) ++
          (':' :: (padStart 2 '0' (intDigits (jsUTCSeconds t)) ++
          ('.' :: padStart 3 '0' (intDigits (jsUTCMilliseconds t))))))))))) := by
      simp only [getDoyTime, getDoyTimeComponents]
      rw [if_pos (by simp [hmspos])]
      simp [List.cons_append, List.append_assoc]
    rw [hstring]
    have hhead : (unixTsBody (intDigits (jsUTCFullYear t) ++
        ('-' :: (padStart 3 '0' (intDigits (getDoy t)) ++
          ('T' :: (padStart 2 '0' (intDigits (jsUTCHours t)) ++
          (':' :: (padStart 2 '0' (intDigits (jsUTCMinutes t)) ++
          (':' :: (padStart 2 '0' (intDigits (jsUTCSeconds t)) ++
          ('.' :: padStart 3 '0' (intDigits (jsUTCMilliseconds t))))))))))))).head? =
        some (⟨intDigits (jsUTCFullYear t), padStart 3 '0' (intDigits (getDoy t)),
          padStart 2 '0' (intDigits (jsUTCHours t)), padStart 2 '0' (intDigits (jsUTCMinutes t)),
          padStart 2 '0' (intDigits (jsUTCSeconds t)),
          some (padStart 3 '0' (intDigits (jsUTCMilliseconds t)))⟩, []) := by
      rw [unixTsBody_msecs _ _ _ _ _ _ hAlen hAd hBlen hBd hClen hCd hDlen hDd hElen hEd
        hFlen hFd]
      rfl
    have hsearch := search_head _ _ _ hhead
    unfold getUnixEpochTime
    rw [hsearch]
    show dateUTC (↑(parseNatDigits (intDigits (jsUTCFullYear t))))
      (↑(parseNatDigits (padStart 3 '0' (intDigits (getDoy t)))))
      (↑(parseNatDigits (padStart 2 '0' (intDigits (jsUTCHours t)))))
      (↑(parseNatDigits (padStart 2 '0' (intDigits (jsUTCMinutes t)))))
      (↑(parseNatDigits (padStart 2 '0' (intDigits (jsUTCSeconds t)))))
      (↑(parseNatDigits (padStart 3 '0' (intDigits (jsUTCMilliseconds t))))) = t
    rw [hAparse, hBparse, hCparse, hDparse, hEparse, hFparse]
    rw [Int.toNat_of_nonneg (by omega : (0:Int) ≤ jsUTCFullYear t),
      Int.toNat_of_nonneg (by omega : (0:Int) ≤ getDoy t),
      Int.toNat_of_nonneg (by omega : (0:Int) ≤ jsUTCHours t),
      Int.toNat_of_nonneg (by omega : (0:Int) ≤ jsUTCMinutes t),
      Int.toNat_of_nonneg (by omega : (0:Int) ≤ jsUTCSeconds t),
      Int.toNat_of_nonneg (by omega : (0:Int) ≤ jsUTCMilliseconds t)]
    simp only [dateUTC, msPerDay, if_neg hquirk]
    rw [hdoy, hh, hmi, hse, hms]
    omega
  · have hstring : getDoyTime t true =
        intDigits (jsUTCFullYear t) ++ ('-' :: (padStart 3 '0' (intDigits (getDoy t)) ++
          ('T' :: (padStart 2 '0' (intDigits (jsUTCHours t)) ++
          (':' :: (padStart 2 '0' (intDigits (jsUTCMinutes t)) ++
          (':' :: padStart 2 '0' (intDigits (jsUTCSeconds t))))))))) := by
      simp only [getDoyTime, getDoyTimeComponents]
      rw [if_neg (by simp [hmspos])]
      simp [List.cons_append, List.append_assoc]
    rw [hstring]
    have hhead : (unixTsBody (intDigits (jsUTCFullYear t) ++
        ('-' :: (padStart 3 '0' (intDigits (getDoy t)) ++
          ('T' :: (padStart 2 '0' (intDigits (jsUTCHours t)) ++
          (':' :: (padStart 2 '0' (intDigits (jsUTCMinutes t)) ++
          (':' :: padStart 2 '0' (intDigits (jsUTCSeconds t))))))))))).head? =
        some (⟨intDigits (jsUTCFullYear t), padStart 3 '0' (intDigits (getDoy t)),
          padStart 2 '0' (intDigits (jsUTCHours t)), padStart 2 '0' (intDigits (jsUTCMinutes t)),
          padStart 2 '0' (intDigits (jsUTCSeconds t)), none⟩, []) := by
      rw [unixTsBody_nomsecs _ _ _ _ _ hAlen hAd hBlen hBd hClen hCd hDlen hDd hElen hEd]
      rfl
    have hsearch := search_head _ _ _ hhead
    unfold getUnixEpochTime
    rw [hsearch]
    show dateUTC (↑(parseNatDigits (intDigits (jsUTCFullYear t))))
      (↑(parseNatDigits (padStart 3 '0' (intDigits (getDoy t)))))
      (↑(parseNatDigits (padStart 2 '0' (intDigits (jsUTCHours t)))))
      (↑(parseNatDigits (padStart 2 '0' (intDigits (jsUTCMinutes t)))))
      (↑(parseNatDigits (padStart 2 '0' (intDigits (jsUTCSeconds t)))))
      (↑(parseNatDigits ['0'])) = t
    rw [hAparse, hBparse, hCparse, hDparse, hEparse]
    rw [show parseNatDigits ['0'] = 0 from by decide]
    rw [Int.toNat_of_nonneg (by omega : (0:Int) ≤ jsUTCFullYear t),
      Int.toNat_of_nonneg (by omega : (0:Int) ≤ getDoy t),
      Int.toNat_of_nonneg (by omega : (0:Int) ≤ jsUTCHours t),
      Int.toNat_of_nonneg (by omega : (0:Int) ≤ jsUTCMinutes t),
      Int.toNat_of_nonneg (by omega : (0:Int) ≤ jsUTCSeconds t)]
    have hms0 : jsUTCMilliseconds t = 0 := by omega
    rw [hms] at hms0
    simp only [dateUTC, msPerDay, if_neg hquirk]
    rw [hdoy, hh, hmi, hse]
    omega


theorem c4_doy_roundtrip_witness :
    1000 ≤ jsUTCFullYear 1577779200000 ∧ jsUTCFullYear 1577779200000 ≤ 9999 ∧
    getUnixEpochTime (getDoyTime 1577779200000 true) = 1577779200000 :=
  ⟨by decide, by decide, c4_doy_roundtrip 1577779200000 (by decide) (by decide)⟩

end SeqnSpec
